import Mathlib

/-!
# SpikeStream: phi subset manager, neuron and connection groups, archive access

A shallow embedding of

* the state-based phi complex-identification engine declared in
  `analysis/statebasedphi/src/analysis/SubsetManager.h` (class `SubsetManager`, with the
  collaborating `Subset` and `PhiCalculator`),
* the position-key functions, the bounding box, the nearest-neuron and neuron-at-location
  searches and the layer construction of `library/src/model/NeuronGroup.cpp`,
* the connection bookkeeping of `library/src/model/ConnectionGroup.cpp`, and
* the firing-neuron queries of `library/src/database/ArchiveDao.cpp`.

Only the declaration of `SubsetManager` is among the sources; the method bodies, `Subset` and
`PhiCalculator` are modelled from the written specification, and every such definition says so
in its doc comment.  The `NeuronGroup`, `ConnectionGroup` and `ArchiveDao` functions are
translated line by line from the C++; floats are modelled by their exact values, a method that
can throw returns its result or the thrown message together with the object afterwards.
-/

namespace spikestream

/-! ## Subset and state data -/

/-- Modelled from the spec: `Subset.h` is not among the sources.  One candidate subset of the
network's elements: the element IDs, the phi value (`none` until it has been computed) and the
complex flag (false until complex identification accepts the subset). -/
structure Subset where
  elements : List Nat
  phi : Option ℚ
  isComplex : Bool
  deriving DecidableEq

/-- Modelled from the spec: the recorded state data is not among the sources.  One entry per
recorded time step, in recording order: the time step and the IDs of the elements firing then. -/
abbrev StateData := List (Nat × List Nat)

/-- Modelled from the spec: a joint state transition, the firing pattern at one time step and at the next one. -/
abbrev Transition := List Bool × List Bool

/-- Modelled from the spec: the joint firing pattern of `els` at a time step whose firing
elements are `firing` (one flag per element of `els`). -/
def firingPattern (els firing : List Nat) : List Bool :=
  els.map (fun e => decide (e ∈ firing))

/-- Modelled from the spec (phi computation, step 1): for every consecutive pair of recorded time
steps, the joint firing pattern at `t` and at `t+1` restricted to the elements `els`. -/
def transitions (els : List Nat) (data : StateData) : List Transition :=
  let patterns := data.map (fun t => firingPattern els t.2)
  patterns.zip patterns.tail

/-! ## Selection arrays -/

/-- Modelled from the spec: the boolean selection vector of length `arrayLength` holding the bit
pattern of `k`; entry `i` is bit `i` of `k`. -/
def selectionArray (arrayLength k : Nat) : List Bool :=
  (List.range arrayLength).map (fun i => k.testBit i)

/-- Modelled from the spec: the element IDs whose selection flag is on, in universe order. -/
def selectedIDs (ids : List Nat) (sel : List Bool) : List Nat :=
  ((ids.zip sel).filter (fun p => p.2)).map (fun p => p.1)

/-- Modelled from the spec: the element IDs whose selection flag is off, in universe order. -/
def unselectedIDs (ids : List Nat) (sel : List Bool) : List Nat :=
  ((ids.zip sel).filter (fun p => !p.2)).map (fun p => p.1)

/-! ## PhiCalculator -/

/-- Modelled from the spec (phi computation, step 2): every split of `els` into two non-empty,
disjoint parts that together cover `els`, enumerated by the bit patterns that are neither all
off nor all on. -/
def bipartitions (els : List Nat) : List (List Nat × List Nat) :=
  (List.range' 1 (2 ^ els.length - 2)).map (fun k =>
    (selectedIDs els (selectionArray els.length k),
     unselectedIDs els (selectionArray els.length k)))

/-- Modelled from the spec (phi computation, step 4): the minimum of the partition distances,
the first one found winning a tie; when no partition is possible the value is 0. -/
def minimumDistance : List ℚ → ℚ
  | [] => 0
  | d :: ds => ds.foldl (fun best x => if x < best then x else best) d

/-- Modelled from the spec: true when the elements fire together in at least one recorded time
step, so that a transition distribution can be built for them. -/
def coOccur (els : List Nat) (data : StateData) : Bool :=
  data.any (fun t => els.all (fun e => decide (e ∈ t.2)))

/-- Modelled from the spec: the error kinds of the phi computation. -/
inductive PhiError where
  | insufficientData
  deriving DecidableEq

/-- Modelled from the spec: `PhiCalculator.h` is not among the sources.  The calculator holds the
shared state data and the information distance between the transition distribution of the whole
and those of the two parts of a partition; the spec leaves the formula of that distance open, so
it is a field. -/
structure PhiCalculator where
  stateData : StateData
  infoDistance : List Transition → List Transition → List Transition → ℚ

/-- Modelled from the spec (phi computation): fails with `insufficientData` when the elements
never co-occur in the recorded data; otherwise the minimum over all bipartitions of the distance
between the whole and the partitioned system. -/
def PhiCalculator.getSubsetPhi (pc : PhiCalculator) (els : List Nat) : Except PhiError ℚ :=
  if coOccur els pc.stateData then
    let whole := transitions els pc.stateData
    .ok (minimumDistance ((bipartitions els).map (fun p =>
      pc.infoDistance whole (transitions p.1 pc.stateData) (transitions p.2 pc.stateData))))
  else
    .error PhiError.insufficientData

/-! ## SubsetManager -/

/-- Modelled from the spec: the phases of one analysis run. -/
inductive Phase where
  | idle
  | enumerating
  | computingPhi
  | identifyingComplexes
  | done
  | aborted
  deriving DecidableEq

/-- Modelled from the spec: the run-level error kinds. -/
inductive RunError where
  | sizingError
  deriving DecidableEq

/-- The state of a `SubsetManager` (fields of `SubsetManager.h`).  `stop` stands for the
`const bool*` into the controlling thread: `stop n` is the value that thread has given the flag
when the manager reads it for the `n`-th time, and `stopReads` counts the reads made so far.
`progress` and `complexFound` record the emitted signals.  `enumerationBound` (the configured
enumeration cap) and `phase` are modelled from the spec. -/
structure SubsetManager where
  timeStep : Nat
  stop : Nat → Bool
  stopReads : Nat
  neuronIDList : List Nat
  subsetList : List Subset
  phiCalculator : PhiCalculator
  enumerationBound : Nat
  phase : Phase
  progress : List (Nat × Nat × Nat)
  complexFound : Nat

/-- Modelled from the spec: `addSubset(subsetSelectionArray, arrayLength)` appends one new subset
holding the element IDs whose selection flag is on; its phi is not computed and it is no
complex. -/
def SubsetManager.addSubset (m : SubsetManager) (subsetSelectionArray : List Bool) :
    SubsetManager :=
  { m with subsetList := m.subsetList ++
      [{ elements := selectedIDs m.neuronIDList subsetSelectionArray,
         phi := none, isComplex := false }] }

/-- Modelled from the spec (subset enumeration): fails fast with a sizing error when the universe
exceeds the enumeration bound; otherwise iterates the selection vector over all `2^N - 1`
non-zero bit patterns and adds one subset per pattern to a fresh subset list. -/
def SubsetManager.buildSubsetList (m : SubsetManager) : Except RunError SubsetManager :=
  let n := m.neuronIDList.length
  if m.enumerationBound < n then
    .error RunError.sizingError
  else
    .ok ((List.range' 1 (2 ^ n - 1)).foldl
      (fun acc k => acc.addSubset (selectionArray n k)) { m with subsetList := [] })

/-- Modelled from the spec (phi pass, one subset): the calculator's value is stored in the
subset; an insufficient-data error is caught at the subset boundary and the phi is recorded
as 0. -/
def phiStep (pc : PhiCalculator) (s : Subset) : Subset :=
  match pc.getSubsetPhi s.elements with
  | .ok v => { s with phi := some v }
  | .error _ => { s with phi := some 0 }

/-- Modelled from the spec: the outcome of the phi pass over a list of subsets: the subsets afterwards, the number of
reads of the stop flag, the progress signals emitted and whether the pass was aborted. -/
structure PhiPass where
  subsets : List Subset
  reads : Nat
  progress : List (Nat × Nat × Nat)
  aborted : Bool

/-- Modelled from the spec (phi pass): before each subset the stop flag is read (read number
`reads`); when it is set the pass ends at once and the remaining subsets are left as they are,
otherwise the subset's phi is computed and a progress signal
`(timeStep, stepsCompleted, totalSteps)` is emitted. -/
def phiPass (pc : PhiCalculator) (stop : Nat → Bool) (timeStep totalSteps : Nat) :
    Nat → Nat → List Subset → PhiPass
  | reads, _, [] => { subsets := [], reads := reads, progress := [], aborted := false }
  | reads, completed, s :: rest =>
    if stop reads then
      { subsets := s :: rest, reads := reads + 1, progress := [], aborted := true }
    else
      let r := phiPass pc stop timeStep totalSteps (reads + 1) (completed + 1) rest
      { subsets := phiStep pc s :: r.subsets, reads := r.reads,
        progress := (timeStep, completed + 1, totalSteps) :: r.progress, aborted := r.aborted }

/-- Modelled from the spec: `calculateSubsetsPhi()` drives the calculator over the subset list,
polling the stop flag between subsets; an observed stop moves the run to the aborted phase. -/
def SubsetManager.calculateSubsetsPhi (m : SubsetManager) : SubsetManager :=
  let r := phiPass m.phiCalculator m.stop m.timeStep m.subsetList.length m.stopReads 0
    m.subsetList
  { m with subsetList := r.subsets, stopReads := r.reads,
           progress := m.progress ++ r.progress,
           phase := if r.aborted then Phase.aborted else m.phase }

/-- Modelled from the spec: the phi value a subset is ranked by; a phi that is undefined counts
as 0. -/
def phiValue (s : Subset) : ℚ := s.phi.getD 0

/-- Modelled from the spec (complex identification): the subsets in descending phi order, equal
phi values keeping their original enumeration order (a stable insertion sort). -/
def sortByPhi (l : List Subset) : List Subset :=
  l.insertionSort (fun a b => phiValue a ≥ phiValue b)

/-- Modelled from the spec (complex identification): the walk over the sorted list.  A subset is
accepted exactly when none of its elements is claimed; an accepted subset gets its complex flag
set, its elements become claimed and one `complexFound` signal is counted. -/
def claimWalk : List Nat → List Subset → List Subset × Nat
  | _, [] => ([], 0)
  | claimed, s :: rest =>
    if s.elements.all (fun e => decide (e ∉ claimed)) then
      let r := claimWalk (claimed ++ s.elements) rest
      ({ s with isComplex := true } :: r.1, r.2 + 1)
    else
      let r := claimWalk claimed rest
      (s :: r.1, r.2)

/-- Modelled from the spec: `identifyComplexes()` sorts the subsets by descending phi and walks
the sorted list with the greedy first-claim rule. -/
def SubsetManager.identifyComplexes (m : SubsetManager) : SubsetManager :=
  let r := claimWalk [] (sortByPhi m.subsetList)
  { m with subsetList := r.1, complexFound := m.complexFound + r.2 }

/-- Modelled from the spec (orchestration): `runCalculation(stop)` stores the stop pointer and
runs the phases in sequence.  A sizing error of the enumeration is passed on to the caller; an
observed stop during the phi pass, or at the entry of complex identification, ends the run in
the aborted phase without identifying complexes. -/
def SubsetManager.runCalculation (m : SubsetManager) (stop : Nat → Bool) :
    Except RunError SubsetManager :=
  match SubsetManager.buildSubsetList
      { m with stop := stop, stopReads := 0, phase := Phase.enumerating } with
  | .error e => .error e
  | .ok m1 =>
    let m2 := SubsetManager.calculateSubsetsPhi { m1 with phase := Phase.computingPhi }
    if m2.phase = Phase.aborted then
      .ok m2
    else if m2.stop m2.stopReads then
      .ok { m2 with stopReads := m2.stopReads + 1, phase := Phase.aborted }
    else
      .ok { SubsetManager.identifyComplexes
              { m2 with stopReads := m2.stopReads + 1, phase := Phase.identifyingComplexes }
            with phase := Phase.done }

/-! ## NeuronGroup position keys (`library/src/model/NeuronGroup.cpp`) -/

/-- A point in 3D space; the coordinates are the exact values of the C++ floats. -/
structure Point3D where
  xPos : ℚ
  yPos : ℚ
  zPos : ℚ
  deriving DecidableEq

/-- The C++ conversion of a `bool` to a number. -/
def boolToNat (b : Bool) : Nat := if b then 1 else 0

/-- `NeuronGroup::getPositionKey(int xPos, int yPos, int zPos)`.  The first guard rejects
negative coordinates.  The second guard is `xPos > 2097151 || yPos > 2097151 || zPos`, so it
rejects every non-zero `zPos`.  The key is built in a `uint64_t`: `newKey <<= 21` shifts,
the statement `newKey << 21` has no effect, and the coordinates are or-ed in. -/
def getPositionKey (xPos yPos zPos : Int) : Except String Nat :=
  if xPos < 0 ∨ yPos < 0 ∨ zPos < 0 then
    .error "This method currently only works with positive positions."
  else if xPos > 2097151 ∨ yPos > 2097151 ∨ zPos ≠ 0 then
    .error "X, Y or Z position out of range. Must be less than or equal to 2097151."
  else
    let newKey : Nat := xPos.toNat % 2 ^ 64
    let newKey : Nat := (newKey <<< 21) % 2 ^ 64
    let newKey : Nat := newKey ||| (yPos.toNat % 2 ^ 64)
    let newKey : Nat := newKey ||| (zPos.toNat % 2 ^ 64)
    .ok newKey

/-- `NeuronGroup::getPointFromPositionKey(uint64_t positionKey)`.  Each coordinate is
`(float)(positionKey && keyExtractor)`, a logical and: 1 when both operands are non-zero,
0 otherwise.  `keyExtractor <<= 21` is taken modulo `2^64`.  The `Point(...)` of the return
statement is read as the `Point3D` of the declared return type. -/
def getPointFromPositionKey (positionKey : Nat) : Point3D :=
  let keyExtractor : Nat := 2097151
  let tmpZPos : ℚ := boolToNat (decide (positionKey ≠ 0) && decide (keyExtractor ≠ 0))
  let keyExtractor : Nat := (keyExtractor <<< 21) % 2 ^ 64
  let tmpYPos : ℚ := boolToNat (decide (positionKey ≠ 0) && decide (keyExtractor ≠ 0))
  let keyExtractor : Nat := (keyExtractor <<< 21) % 2 ^ 64
  let tmpXPos : ℚ := boolToNat (decide (positionKey ≠ 0) && decide (keyExtractor ≠ 0))
  { xPos := tmpXPos, yPos := tmpYPos, zPos := tmpZPos }

/-- Lexicographic order on positions: by x, then y, then z. -/
def lexLess (p q : Int × Int × Int) : Prop :=
  p.1 < q.1 ∨ (p.1 = q.1 ∧ (p.2.1 < q.2.1 ∨ (p.2.1 = q.2.1 ∧ p.2.2 < q.2.2)))

instance (p q : Int × Int × Int) : Decidable (lexLess p q) := by
  unfold lexLess; infer_instance

/-- A manager in the idle phase for the element universe `ids`, with no recorded state data. -/
def exampleManager (ids : List Nat) (subsets : List Subset) : SubsetManager :=
  { timeStep := 0, stop := fun _ => false, stopReads := 0, neuronIDList := ids,
    subsetList := subsets, phiCalculator := { stateData := [], infoDistance := fun _ _ _ => 0 },
    enumerationBound := 24, phase := Phase.idle, progress := [], complexFound := 0 }

/-- Four ranked subsets over the universe {1, 2, 3, 4}: {1, 2} with phi 3, {2, 3} with phi 2,
{3, 4} and {4} with phi 1. -/
def rankedExample : List Subset :=
  [{ elements := [1, 2], phi := some 3, isComplex := false },
   { elements := [2, 3], phi := some 2, isComplex := false },
   { elements := [3, 4], phi := some 1, isComplex := false },
   { elements := [4], phi := some 1, isComplex := false }]

/-! ## Connection and ConnectionGroup (`library/src/model/ConnectionGroup.cpp`) -/

/-- The fields of a `Connection` (`library/src/model/Connection.cpp`); the floats are modelled
by their exact values. -/
structure Connection where
  id : Nat
  fromNeuronID : Nat
  toNeuronID : Nat
  delay : ℚ
  weight : ℚ
  tempWeight : ℚ
  deriving DecidableEq

/-- Modelled from the spec: `Connection::setWeight` is declared in `Connection.h`, which is not
among the sources (its test is `TestConnection::testSetWeight`); it assigns the weight field. -/
def Connection.setWeight (c : Connection) (weight : ℚ) : Connection :=
  { c with weight := weight }

/-- Modelled from the spec: `Connection::setTempWeight` is declared in `Connection.h`, which is
not among the sources (its test is `TestConnection::testSetTempWeight`); it assigns the
temporary weight field. -/
def Connection.setTempWeight (c : Connection) (tempWeight : ℚ) : Connection :=
  { c with tempWeight := tempWeight }

/-- A `Connection*`: the address of a connection object. -/
abbrev ConnPtr := Nat

/-- A `QHash<unsigned, T>` that is only looked up and assigned to, never iterated: the value
stored under each key, if any. -/
abbrev QHash (α : Type) := Nat → Option α

/-- `QHash::contains(key)`. -/
def QHash.contains {α : Type} (h : QHash α) (key : Nat) : Bool := (h key).isSome

/-- The assignment `hash[key] = value`. -/
def QHash.insert {α : Type} (h : QHash α) (key : Nat) (value : α) : QHash α :=
  fun k => if k = key then some value else h k

/-- The non-const `hash[key]`: the stored value and the hash as it is afterwards; for a missing
key a default-constructed value is inserted and returned. -/
def QHash.index {α : Type} (h : QHash α) (key : Nat) (dflt : α) : α × QHash α :=
  match h key with
  | some v => (v, h)
  | none => (dflt, h.insert key dflt)

/-- The state of a `ConnectionGroup`: the three hashes of the class, holding pointers, and the
connection objects those pointers refer to (`memory`; every address handed to the group is
taken to hold a live connection object, and 0 is the null pointer). -/
structure ConnectionGroup where
  memory : ConnPtr → Connection
  connectionMap : QHash ConnPtr
  fromConnectionMap : QHash (List ConnPtr)
  toConnectionMap : QHash (List ConnPtr)

/-- A group as the constructor leaves it: no connection stored. -/
def ConnectionGroup.empty (memory : ConnPtr → Connection) : ConnectionGroup :=
  { memory := memory, connectionMap := fun _ => none, fromConnectionMap := fun _ => none,
    toConnectionMap := fun _ => none }

/-- `ConnectionGroup::addConnection(Connection* newConn)`: the returned pointer or the thrown
message, and the group afterwards.  The throw comes before any assignment. -/
def ConnectionGroup.addConnection (g : ConnectionGroup) (newConn : ConnPtr) :
    Except String ConnPtr × ConnectionGroup :=
  if g.connectionMap.contains (g.memory newConn).id then
    (.error ("Connection with ID " ++ toString (g.memory newConn).id ++
      " already exists in this group."), g)
  else
    let connectionMap := g.connectionMap.insert (g.memory newConn).id newConn
    let fromEntry := g.fromConnectionMap.index (g.memory newConn).fromNeuronID []
    let fromConnectionMap :=
      fromEntry.2.insert (g.memory newConn).fromNeuronID (fromEntry.1 ++ [newConn])
    let toEntry := g.toConnectionMap.index (g.memory newConn).toNeuronID []
    let toConnectionMap :=
      toEntry.2.insert (g.memory newConn).toNeuronID (toEntry.1 ++ [newConn])
    (.ok newConn, { g with connectionMap := connectionMap,
                           fromConnectionMap := fromConnectionMap,
                           toConnectionMap := toConnectionMap })

/-- `ConnectionGroup::contains(unsigned neuronID)`. -/
def ConnectionGroup.contains (g : ConnectionGroup) (neuronID : Nat) : Bool :=
  if g.fromConnectionMap.contains neuronID || g.toConnectionMap.contains neuronID then true
  else false

/-- `ConnectionGroup::getFromConnections(unsigned int neurID)`: the returned list and the group
afterwards.  The function has no `throw`; the result is an `Except` only so that throwing can be
spoken about. -/
def ConnectionGroup.getFromConnections (g : ConnectionGroup) (neurID : Nat) :
    Except String (List ConnPtr) × ConnectionGroup :=
  if !g.fromConnectionMap.contains neurID then
    (.ok [], g)
  else
    let entry := g.fromConnectionMap.index neurID []
    (.ok entry.1, { g with fromConnectionMap := entry.2 })

/-- `ConnectionGroup::getToConnections(unsigned int neurID)`: the returned list and the group
afterwards.  The function has no `throw`, although its comment announces an exception. -/
def ConnectionGroup.getToConnections (g : ConnectionGroup) (neurID : Nat) :
    Except String (List ConnPtr) × ConnectionGroup :=
  if !g.toConnectionMap.contains neurID then
    (.ok [], g)
  else
    let entry := g.toConnectionMap.index neurID []
    (.ok entry.1, { g with toConnectionMap := entry.2 })

/-- `ConnectionGroup::setTempWeight(unsigned connectionID, float tempWeight)`: the thrown
message, if any, and the group afterwards. -/
def ConnectionGroup.setTempWeight (g : ConnectionGroup) (connectionID : Nat) (tempWeight : ℚ) :
    Except String Unit × ConnectionGroup :=
  if !g.connectionMap.contains connectionID then
    (.error ("Failed to set temp weight. Connection with ID " ++ toString connectionID ++
      " does not exist in this connection group."), g)
  else
    let entry := g.connectionMap.index connectionID 0
    (.ok (), { g with connectionMap := entry.2,
                      memory := fun p =>
                        if p = entry.1 then (g.memory p).setTempWeight tempWeight
                        else g.memory p })

/-- `ConnectionGroup::setWeight(unsigned connectionID, float weight)`: the thrown message, if
any, and the group afterwards. -/
def ConnectionGroup.setWeight (g : ConnectionGroup) (connectionID : Nat) (weight : ℚ) :
    Except String Unit × ConnectionGroup :=
  if !g.connectionMap.contains connectionID then
    (.error ("Failed to set weight. Connection with ID " ++ toString connectionID ++
      " does not exist in this connection group."), g)
  else
    let entry := g.connectionMap.index connectionID 0
    (.ok (), { g with connectionMap := entry.2,
                      memory := fun p =>
                        if p = entry.1 then (g.memory p).setWeight weight else g.memory p })

/-- The from and to indexes agree with the connection map: a pointer stands in the list of a
neuron ID exactly when the connection map holds it under its connection's ID and the
connection starts (or ends) at that neuron.  This is the state every group built by
`addConnection` is in. -/
def ConnectionGroup.indexesConsistent (g : ConnectionGroup) : Prop :=
  (∀ n p, p ∈ (g.fromConnectionMap n).getD [] ↔
    (g.connectionMap (g.memory p).id = some p ∧ (g.memory p).fromNeuronID = n)) ∧
  (∀ n p, p ∈ (g.toConnectionMap n).getD [] ↔
    (g.connectionMap (g.memory p).id = some p ∧ (g.memory p).toNeuronID = n))

/-- Three connection objects at the addresses 1, 2 and 3: connection 7 from neuron 10 to
neuron 20, connection 8 from 10 to 30, and a second object with the ID 7; every other address
holds connection 0 from neuron 0 to neuron 0. -/
def exampleMemory : ConnPtr → Connection := fun p =>
  if p = 1 then { id := 7, fromNeuronID := 10, toNeuronID := 20, delay := 1, weight := 1 / 2,
                  tempWeight := 0 }
  else if p = 2 then { id := 8, fromNeuronID := 10, toNeuronID := 30, delay := 1, weight := 1 / 4,
                       tempWeight := 0 }
  else if p = 3 then { id := 7, fromNeuronID := 40, toNeuronID := 50, delay := 2, weight := 1,
                       tempWeight := 0 }
  else { id := 0, fromNeuronID := 0, toNeuronID := 0, delay := 0, weight := 0, tempWeight := 0 }

/-- The group holding the connections at the addresses 1 and 2 of `exampleMemory`. -/
def exampleGroup : ConnectionGroup :=
  (((ConnectionGroup.empty exampleMemory).addConnection 1).2.addConnection 2).2

/-! ## NeuronGroup (`library/src/model/NeuronGroup.cpp`) -/

/-- Modelled from the spec: `Neuron.h` is not among the sources.  A neuron as far as the group
reads it: its location, set by the constructor `Neuron(xPos, yPos, zPos)`. -/
structure Neuron where
  location : Point3D
  deriving DecidableEq

/-- `Neuron::getXPos()`. -/
def Neuron.getXPos (n : Neuron) : ℚ := n.location.xPos

/-- `Neuron::getYPos()`. -/
def Neuron.getYPos (n : Neuron) : ℚ := n.location.yPos

/-- `Neuron::getZPos()`. -/
def Neuron.getZPos (n : Neuron) : ℚ := n.location.zPos

/-- Modelled from the spec: `Box.h` is not among the sources.  An axis-aligned box with the
corners `(x1, y1, z1)` and `(x2, y2, z2)`, in the order of the constructor call in
`getBoundingBox`. -/
structure Box where
  x1 : ℚ
  y1 : ℚ
  z1 : ℚ
  x2 : ℚ
  y2 : ℚ
  z2 : ℚ
  deriving DecidableEq

/-- Modelled from the spec: `Point3D::distance` (`Point3D.h`) is not among the sources.  The
Euclidean distance is represented by its square, which orders points the same way and is
compared with 0 the same way. -/
def Point3D.distance (p q : Point3D) : ℚ :=
  (p.xPos - q.xPos) ^ 2 + (p.yPos - q.yPos) ^ 2 + (p.zPos - q.zPos) ^ 2

/-- The `NeuronMap` (`QHash<unsigned, Neuron*>`) with its entries in iteration order. -/
abbrev NeuronMap := List (Nat × Neuron)

/-- `NeuronMap::contains(key)`. -/
def NeuronMap.contains (m : NeuronMap) (key : Nat) : Bool := m.any (fun e => e.1 == key)

/-- The assignment `map[key] = value`: the value of a stored key is replaced; a new key gets a
place in the iteration order, here the last one (a `QHash` leaves the place unspecified). -/
def NeuronMap.assign (m : NeuronMap) (key : Nat) (value : Neuron) : NeuronMap :=
  if m.contains key then m.map (fun e => if e.1 = key then (key, value) else e)
  else m ++ [(key, value)]

/-- The state of a `NeuronGroup` that the modelled methods read or write, with the static
`neuronIDCounter`. -/
structure NeuronGroup where
  neuronMap : NeuronMap
  boundingBox : Box
  calculateBoundingBox : Bool
  positionMapBuilt : Bool
  neuronIDCounter : Nat

/-- `NeuronGroup::neuronGroupChanged()`. -/
def NeuronGroup.neuronGroupChanged (g : NeuronGroup) : NeuronGroup :=
  { g with calculateBoundingBox := true, positionMapBuilt := false }

/-- `NeuronGroup::getTemporaryID()`: `return ++neuronIDCounter;` on a 32-bit `unsigned`. -/
def NeuronGroup.getTemporaryID (g : NeuronGroup) : Nat × NeuronGroup :=
  let counter := (g.neuronIDCounter + 1) % 2 ^ 32
  (counter, { g with neuronIDCounter := counter })

/-- `NeuronGroup::size()`. -/
def NeuronGroup.size (g : NeuronGroup) : Nat := g.neuronMap.length

/-- `NeuronGroup::addNeuron(float xPos, float yPos, float zPos)`: the new neuron or the thrown
message, and the group afterwards. -/
def NeuronGroup.addNeuron (g : NeuronGroup) (xPos yPos zPos : ℚ) :
    Except String Neuron × NeuronGroup :=
  let tmpNeuron : Neuron := { location := { xPos := xPos, yPos := yPos, zPos := zPos } }
  let tmp := g.getTemporaryID
  if tmp.2.neuronMap.contains tmp.1 then
    (.error ("Automatically generated temporary neuron ID clashes with one in the network. " ++
      "New ID=" ++ toString tmp.1), tmp.2)
  else
    (.ok tmpNeuron,
     NeuronGroup.neuronGroupChanged
       { tmp.2 with neuronMap := tmp.2.neuronMap.assign tmp.1 tmpNeuron })

/-- The value a 32-bit `int` holds after an arithmetic result `i` wrapped around in two's
complement. -/
def wrapInt32 (i : Int) : Int := (i + 2147483648) % 4294967296 - 2147483648

/-- The values a 32-bit `int` can hold. -/
def inInt32 (i : Int) : Prop := -2147483648 ≤ i ∧ i ≤ 2147483647

instance (i : Int) : Decidable (inInt32 i) := by
  unfold inInt32; infer_instance

/-- The values an `int` loop variable takes in `for(v = start; v < start + count; ++v)`: from
`start` up to the bound.  The bound is a sum of 32-bit `int`s; an overflow of it is undefined
behaviour, for which the model takes the wrapped sum, under which the loop runs no
iteration. -/
def intRange (start count : Int) : List Int :=
  (List.range (wrapInt32 (start + count) - start).toNat).map
    (fun (i : Nat) => start + (i : Int))

/-- The number of low bits a `float` significand of 24 bits drops from a number of at most 32
bits. -/
def droppedBits : Nat → Nat → Nat
  | 0, _ => 0
  | fuel + 1, a => if a < 16777216 then 0 else 1 + droppedBits fuel (a / 2)

/-- The conversion of a 32-bit `int` to `float` (IEEE 754 single precision, round to nearest,
ties to even), which `addLayer` applies when it passes its `int` loop variables to the `float`
parameters of `addNeuron`.  Integers of magnitude up to `2^24` are converted exactly. -/
def intToFloat (i : Int) : ℚ :=
  if i.natAbs ≤ 16777216 then (i : ℚ)
  else
    let shift := droppedBits 8 i.natAbs
    let q := i.natAbs / 2 ^ shift
    let r := i.natAbs % 2 ^ shift
    let q := if 2 ^ shift < 2 * r ∨ (2 * r = 2 ^ shift ∧ q % 2 = 1) then q + 1 else q
    (((if i < 0 then -1 else 1) * ((q * 2 ^ shift : Nat) : Int) : Int) : ℚ)

/-- The inner loop of `addLayer` for one `x`: an `addNeuron` per `y`, ended by the first
throw. -/
def NeuronGroup.addLayerRow (x zPos : Int) :
    List Int → NeuronGroup → Except String Unit × NeuronGroup
  | [], g => (.ok (), g)
  | y :: ys, g =>
    match g.addNeuron (intToFloat x) (intToFloat y) (intToFloat zPos) with
    | (.error e, g1) => (.error e, g1)
    | (.ok _, g1) => NeuronGroup.addLayerRow x zPos ys g1

/-- The outer loop of `addLayer`: one inner loop per `x`, ended by the first throw. -/
def NeuronGroup.addLayerRows (zPos : Int) (ys : List Int) :
    List Int → NeuronGroup → Except String Unit × NeuronGroup
  | [], g => (.ok (), g)
  | x :: xs, g =>
    match NeuronGroup.addLayerRow x zPos ys g with
    | (.error e, g1) => (.error e, g1)
    | (.ok _, g1) => NeuronGroup.addLayerRows zPos ys xs g1

/-- `NeuronGroup::addLayer(int width, int height, int xPos, int yPos, int zPos)`: the thrown
message, if any, and the group afterwards.  The parameters are 32-bit `int`s. -/
def NeuronGroup.addLayer (g : NeuronGroup)
    (width height xPos yPos zPos : Int) : Except String Unit × NeuronGroup :=
  match NeuronGroup.addLayerRows zPos (intRange yPos height) (intRange xPos width) g with
  | (.error e, g1) => (.error e, g1)
  | (.ok _, g1) => (.ok (), g1.neuronGroupChanged)

/-- The body of the loop of `getBoundingBox` for one neuron: the first neuron sets the box,
every later one expands it. -/
def expandBox (boundingBox : Box) (firstTime : Bool) (tmpNeuron : Neuron) : Box :=
  if firstTime then
    { x1 := tmpNeuron.getXPos, y1 := tmpNeuron.getYPos, z1 := tmpNeuron.getZPos,
      x2 := tmpNeuron.getXPos, y2 := tmpNeuron.getYPos, z2 := tmpNeuron.getZPos }
  else
    let b := boundingBox
    let b := if tmpNeuron.getXPos < b.x1 then { b with x1 := tmpNeuron.getXPos } else b
    let b := if tmpNeuron.getYPos < b.y1 then { b with y1 := tmpNeuron.getYPos } else b
    let b := if tmpNeuron.getZPos < b.z1 then { b with z1 := tmpNeuron.getZPos } else b
    let b := if tmpNeuron.getXPos > b.x2 then { b with x2 := tmpNeuron.getXPos } else b
    let b := if tmpNeuron.getYPos > b.y2 then { b with y2 := tmpNeuron.getYPos } else b
    let b := if tmpNeuron.getZPos > b.z2 then { b with z2 := tmpNeuron.getZPos } else b
    b

/-- The loop of `getBoundingBox` over the neuron map; `firstTime` is false from the second
neuron on. -/
def boundingBoxLoop : Box → Bool → NeuronMap → Box
  | boundingBox, _, [] => boundingBox
  | boundingBox, firstTime, e :: rest =>
    boundingBoxLoop (expandBox boundingBox firstTime e.2) false rest

/-- `NeuronGroup::getBoundingBox()`: the returned box and the group afterwards. -/
def NeuronGroup.getBoundingBox (g : NeuronGroup) : Box × NeuronGroup :=
  if !g.calculateBoundingBox then
    (g.boundingBox, g)
  else
    let boundingBox := boundingBoxLoop g.boundingBox true g.neuronMap
    (boundingBox, { g with boundingBox := boundingBox, calculateBoundingBox := false })

/-- The locals of `getNearestNeuron`; `closestNeuron` is `none` while the pointer has not been
assigned. -/
structure NearestState where
  minDist : ℚ
  firstTime : Bool
  closestNeuron : Option Neuron

/-- The loop of `getNearestNeuron` over the neuron map. -/
def nearestLoop (point : Point3D) : NearestState → NeuronMap → NearestState
  | st, [] => st
  | st, e :: rest =>
    let tmpDist := e.2.location.distance point
    if st.firstTime then
      nearestLoop point { minDist := tmpDist, firstTime := false, closestNeuron := some e.2 } rest
    else if tmpDist < st.minDist then
      nearestLoop point { st with minDist := tmpDist, closestNeuron := some e.2 } rest
    else
      nearestLoop point st rest

/-- `NeuronGroup::getNearestNeuron(const Point3D& point)`.  The local `bool firstTime` is
declared without an initialiser and read before any assignment, so the value it starts with is
a parameter; the result is `none` when the pointer `closestNeuron`, also declared without an
initialiser, is returned unassigned. -/
def NeuronGroup.getNearestNeuron (firstTime : Bool) (g : NeuronGroup) (point : Point3D) :
    Option Neuron :=
  (nearestLoop point { minDist := 0, firstTime := firstTime, closestNeuron := none }
    g.neuronMap).closestNeuron

/-- The loop of `getNeuronAtLocation`; the exception carries its text and the point whose
rendering the C++ appends to it.  `Point3D::operator==` (not among the sources) is modelled as
equality of the coordinates. -/
def neuronAtLocationLoop (point : Point3D) : NeuronMap → Except (String × Point3D) Nat
  | [] => .error ("No neuron at location ", point)
  | e :: rest => if e.2.location = point then .ok e.1 else neuronAtLocationLoop point rest

/-- `NeuronGroup::getNeuronAtLocation(const Point3D& point)`. -/
def NeuronGroup.getNeuronAtLocation (g : NeuronGroup) (point : Point3D) :
    Except (String × Point3D) Nat :=
  neuronAtLocationLoop point g.neuronMap

/-- A neuron at the given coordinates. -/
def neuronAt (x y z : ℚ) : Neuron := { location := { xPos := x, yPos := y, zPos := z } }

/-- A group of three neurons with the IDs 5, 6 and 7 at (1, 2, 3), (4, 0, 3) and (1, 5, -1),
changed since its bounding box was last computed. -/
def exampleNeuronGroup : NeuronGroup :=
  { neuronMap := [(5, neuronAt 1 2 3), (6, neuronAt 4 0 3), (7, neuronAt 1 5 (-1))],
    boundingBox := { x1 := 0, y1 := 0, z1 := 0, x2 := 0, y2 := 0, z2 := 0 },
    calculateBoundingBox := true, positionMapBuilt := false, neuronIDCounter := 100 }

/-- The IDs that `count` successive calls of `getTemporaryID` return when the static counter
holds `counter` before the first call. -/
def temporaryIDs : Nat → Nat → List Nat
  | _, 0 => []
  | counter, count + 1 =>
    (counter + 1) % 2 ^ 32 :: temporaryIDs ((counter + 1) % 2 ^ 32) count

/-- The static counter after `count` successive calls of `getTemporaryID`. -/
def advanceCounter : Nat → Nat → Nat
  | counter, 0 => counter
  | counter, count + 1 => advanceCounter ((counter + 1) % 2 ^ 32) count

/-- The neurons of a layer in the order the loops of `addLayer` create them: one for each grid
position `(x, y, zPos)` that the loops visit, located at the `float` conversion of that
position. -/
def layerNeurons (width height xPos yPos zPos : Int) : List Neuron :=
  (intRange xPos width).flatMap (fun x =>
    (intRange yPos height).map (fun y =>
      neuronAt (intToFloat x) (intToFloat y) (intToFloat zPos)))

/-! ## ArchiveDao (`library/src/database/ArchiveDao.cpp`) -/

/-- A `QString`, as its sequence of characters. -/
abbrev QString := List Char

/-- `QString::split(sep)` for a one-character separator, with the default behaviour of keeping
empty parts: the parts between the separators, so the empty string splits into one empty
part. -/
def QString.split (sep : Char) : QString → List QString
  | [] => [[]]
  | c :: cs =>
    if c = sep then [] :: QString.split sep cs
    else
      match QString.split sep cs with
      | [] => [[c]]
      | part :: parts => (c :: part) :: parts

/-- `QStringList::join(sep)` for a one-character separator. -/
def QString.join (sep : Char) : List QString → QString
  | [] => []
  | [part] => part
  | part :: parts => part ++ sep :: QString.join sep parts

/-- The `ArchiveData` table: the rows `(ArchiveID, TimeStep, FiringNeurons)` in the order the
database returns them. -/
abbrev ArchiveData := List (Nat × Nat × QString)

/-- `ArchiveDao::addArchiveData(archiveID, timeStep, firingNeuronString)`: the `INSERT` adds one
row.  The SQL text is modelled by its meaning for a firing-neuron string without quote or
backslash characters; the constraints of the table are not among the sources. -/
def addArchiveData (db : ArchiveData) (archiveID timeStep : Nat) (firingNeuronString : QString) :
    ArchiveData :=
  db ++ [(archiveID, timeStep, firingNeuronString)]

/-- The separator of the firing-neuron string: the comma. -/
def comma : Char := Char.ofNat 44

/-- `ArchiveDao::getFiringNeuronIDs(archiveID, timeStep)`: the `SELECT` yields the
`FiringNeurons` column of the rows with that time step and archive; an empty result gives the
empty list, otherwise the first value is split at the commas. -/
def getFiringNeuronIDs (db : ArchiveData) (archiveID timeStep : Nat) : List QString :=
  let query := (db.filter (fun row => row.2.1 == timeStep && row.1 == archiveID)).map
    (fun row => row.2.2)
  if query.length = 0 then []
  else
    match query with
    | [] => []
    | value :: _ => QString.split comma value

/-- The characters that end or escape an SQL string literal: the single quote and the
backslash. -/
def sqlPlain (s : QString) : Prop := Char.ofNat 39 ∉ s ∧ Char.ofNat 92 ∉ s

instance (s : QString) : Decidable (sqlPlain s) := by
  unfold sqlPlain; infer_instance

/-! ## Subset enumeration -/

/-- Adding one subset per bit pattern appends the mapped patterns to the subset list and
leaves every other field of the manager as it is. -/
theorem foldl_addSubset (n : Nat) (ks : List Nat) (m : SubsetManager) :
    ks.foldl (fun acc k => acc.addSubset (selectionArray n k)) m =
      { m with subsetList := m.subsetList ++ ks.map (fun k =>
          { elements := selectedIDs m.neuronIDList (selectionArray n k),
            phi := none, isComplex := false }) } := by
  induction ks generalizing m with
  | nil => simp
  | cons k ks ih =>
    rw [List.foldl_cons, ih]
    simp [SubsetManager.addSubset]

/-- Entry `i` of the selection array of `k` is bit `i` of `k`. -/
theorem selectionArray_getElem? (n k i : Nat) (b : Bool) :
    (selectionArray n k)[i]? = some b ↔ i < n ∧ k.testBit i = b := by
  unfold selectionArray
  rw [List.getElem?_map]
  by_cases h : i < n
  · simp [List.getElem?_range h, h]
  · simp [List.getElem?_eq_none (l := List.range n) (by simpa using h), h]

/-- An ID is selected by the pattern `k` exactly when it stands at an index whose bit is on. -/
theorem mem_selectedIDs (ids : List Nat) (k e : Nat) :
    e ∈ selectedIDs ids (selectionArray ids.length k) ↔
      ∃ i, ids[i]? = some e ∧ k.testBit i = true := by
  unfold selectedIDs
  rw [List.mem_map]
  constructor
  · rintro ⟨⟨a, b⟩, hmem, rfl⟩
    rw [List.mem_filter] at hmem
    obtain ⟨hz, hb⟩ := hmem
    obtain ⟨i, hi⟩ := List.mem_iff_getElem?.mp hz
    rw [List.getElem?_zip_eq_some] at hi
    refine ⟨i, hi.1, ?_⟩
    have h2 := (selectionArray_getElem? _ _ _ _).mp hi.2
    simp only at hb
    rw [h2.2, hb]
  · rintro ⟨i, hi, hb⟩
    refine ⟨(e, true), ?_, rfl⟩
    rw [List.mem_filter]
    refine ⟨?_, rfl⟩
    apply List.mem_iff_getElem?.mpr
    refine ⟨i, ?_⟩
    rw [List.getElem?_zip_eq_some]
    refine ⟨hi, (selectionArray_getElem? _ _ _ _).mpr ⟨?_, hb⟩⟩
    exact (List.getElem?_eq_some_iff.mp hi).1

/-- In a universe of distinct IDs, the ID at index `i` is selected exactly when bit `i` is on. -/
theorem testBit_of_selected (ids : List Nat) (hnd : ids.Nodup) (k i : Nat) (hi : i < ids.length) :
    ids[i] ∈ selectedIDs ids (selectionArray ids.length k) ↔ k.testBit i = true := by
  rw [mem_selectedIDs]
  constructor
  · rintro ⟨j, hj, hb⟩
    obtain ⟨hjl, hje⟩ := List.getElem?_eq_some_iff.mp hj
    have : j = i := (hnd.getElem_inj_iff).mp hje
    rw [← this]; exact hb
  · intro hb
    exact ⟨i, List.getElem?_eq_getElem hi, hb⟩

/-- In a universe of distinct IDs, two patterns below `2^N` selecting the same element set are
equal. -/
theorem selected_injective (ids : List Nat) (hnd : ids.Nodup) (k k' : Nat)
    (hk : k < 2 ^ ids.length) (hk' : k' < 2 ^ ids.length)
    (h : (selectedIDs ids (selectionArray ids.length k)).toFinset =
         (selectedIDs ids (selectionArray ids.length k')).toFinset) : k = k' := by
  apply Nat.eq_of_testBit_eq
  intro i
  by_cases hi : i < ids.length
  · have h1 := testBit_of_selected ids hnd k i hi
    have h2 := testBit_of_selected ids hnd k' i hi
    have h3 : ids[i] ∈ selectedIDs ids (selectionArray ids.length k) ↔
        ids[i] ∈ selectedIDs ids (selectionArray ids.length k') := by
      rw [← List.mem_toFinset, h, List.mem_toFinset]
    rw [h1, h2] at h3
    exact Bool.eq_iff_iff.mpr h3
  · have hle : ids.length ≤ i := Nat.le_of_not_lt hi
    rw [Nat.testBit_lt_two_pow (lt_of_lt_of_le hk (Nat.pow_le_pow_right (by decide) hle)),
        Nat.testBit_lt_two_pow (lt_of_lt_of_le hk' (Nat.pow_le_pow_right (by decide) hle))]

/-- A non-zero pattern below `2^N` selects at least one element. -/
theorem selected_nonempty (ids : List Nat) (k : Nat) (hk0 : 0 < k) (hk : k < 2 ^ ids.length) :
    selectedIDs ids (selectionArray ids.length k) ≠ [] := by
  obtain ⟨i, hi⟩ := Nat.ne_zero_implies_bit_true (Nat.pos_iff_ne_zero.mp hk0)
  have hil : i < ids.length := by
    by_contra hcon
    have hle : ids.length ≤ i := Nat.le_of_not_lt hcon
    rw [Nat.testBit_lt_two_pow (lt_of_lt_of_le hk (Nat.pow_le_pow_right (by decide) hle))] at hi
    exact Bool.false_ne_true hi
  have hmem : ids[i] ∈ selectedIDs ids (selectionArray ids.length k) :=
    (mem_selectedIDs ids k _).mpr ⟨i, List.getElem?_eq_getElem hil, hi⟩
  exact List.ne_nil_of_mem hmem

/-- Every selected element belongs to the universe. -/
theorem selected_subset (ids : List Nat) (k e : Nat)
    (h : e ∈ selectedIDs ids (selectionArray ids.length k)) : e ∈ ids := by
  obtain ⟨i, hi, _⟩ := (mem_selectedIDs ids k e).mp h
  exact List.mem_iff_getElem?.mpr ⟨i, hi⟩


/-- Within the enumeration bound, `buildSubsetList` returns the manager with one fresh subset per
bit pattern `1 .. 2^N - 1`. -/
theorem buildSubsetList_eq (m : SubsetManager)
    (hbound : m.neuronIDList.length ≤ m.enumerationBound) :
    m.buildSubsetList = .ok { m with subsetList :=
      (List.range' 1 (2 ^ m.neuronIDList.length - 1)).map (fun k =>
        { elements := selectedIDs m.neuronIDList (selectionArray m.neuronIDList.length k),
          phi := none, isComplex := false }) } := by
  unfold SubsetManager.buildSubsetList
  simp only [not_lt.mpr hbound, if_false]
  rw [foldl_addSubset]
  simp

/-- The enumerated patterns are the numbers `1 .. 2^N - 1`. -/
theorem mem_range_patterns (n k : Nat) :
    k ∈ List.range' 1 (2 ^ n - 1) ↔ 0 < k ∧ k < 2 ^ n := by
  have : 0 < 2 ^ n := Nat.two_pow_pos n
  rw [List.mem_range'_1]
  omega

/-- The element sets of the enumerated patterns are pairwise distinct. -/
theorem patterns_nodup (ids : List Nat) (hnd : ids.Nodup) :
    ((List.range' 1 (2 ^ ids.length - 1)).map (fun k =>
      (selectedIDs ids (selectionArray ids.length k)).toFinset)).Nodup := by
  apply List.Nodup.map_on
  · intro x hx y hy hxy
    rw [mem_range_patterns] at hx hy
    exact selected_injective ids hnd x y hx.2 hy.2 hxy
  · exact List.nodup_range' 1 _

/-- The element sets of the enumerated patterns are exactly the non-empty subsets of the universe. -/
theorem patterns_cover (ids : List Nat) (hnd : ids.Nodup) :
    ((List.range' 1 (2 ^ ids.length - 1)).map (fun k =>
      (selectedIDs ids (selectionArray ids.length k)).toFinset)).toFinset =
      ids.toFinset.powerset.erase ∅ := by
  apply Finset.eq_of_subset_of_card_le
  · intro c hc
    rw [List.mem_toFinset, List.mem_map] at hc
    obtain ⟨k, hk, rfl⟩ := hc
    rw [mem_range_patterns] at hk
    rw [Finset.mem_erase, Finset.mem_powerset]
    constructor
    · intro hempty
      apply selected_nonempty ids k hk.1 hk.2
      exact List.toFinset_eq_empty_iff _ |>.mp hempty
    · intro e he
      rw [List.mem_toFinset] at he ⊢
      exact selected_subset ids k e he
  · rw [List.toFinset_card_of_nodup (patterns_nodup ids hnd), List.length_map,
      List.length_range', Finset.card_erase_of_mem, Finset.card_powerset,
      List.toFinset_card_of_nodup hnd]
    simp

/-- Claim C1: for a universe of `N` distinct element IDs within the enumeration bound (in particular
every `1 ≤ N ≤ 20` under a bound of at least 20), `buildSubsetList` succeeds and produces
exactly `2^N - 1` subsets, pairwise distinct by element-set content, each a non-empty
combination of universe elements, and every non-empty combination of the universe appears
exactly once. -/
theorem buildSubsetList_enumerates (m : SubsetManager) (hnd : m.neuronIDList.Nodup)
    (hbound : m.neuronIDList.length ≤ m.enumerationBound) :
    ∃ m1, m.buildSubsetList = .ok m1 ∧
      m1.subsetList.length = 2 ^ m.neuronIDList.length - 1 ∧
      (m1.subsetList.map (fun s => s.elements.toFinset)).Nodup ∧
      (∀ s ∈ m1.subsetList, s.elements ≠ [] ∧ ∀ e ∈ s.elements, e ∈ m.neuronIDList) ∧
      ∀ c : Finset Nat, c.Nonempty → c ⊆ m.neuronIDList.toFinset →
        (m1.subsetList.map (fun s => s.elements.toFinset)).count c = 1 := by
  refine ⟨_, buildSubsetList_eq m hbound, ?_, ?_, ?_, ?_⟩
  · simp
  · simpa [List.map_map, Function.comp_def] using patterns_nodup m.neuronIDList hnd
  · intro s hs
    simp only [List.mem_map] at hs
    obtain ⟨k, hk, rfl⟩ := hs
    rw [mem_range_patterns] at hk
    exact ⟨selected_nonempty _ k hk.1 hk.2, fun e he => selected_subset _ k e he⟩
  · intro c hc hsub
    have hmem : c ∈ ((List.range' 1 (2 ^ m.neuronIDList.length - 1)).map (fun k =>
        (selectedIDs m.neuronIDList
          (selectionArray m.neuronIDList.length k)).toFinset)).toFinset := by
      rw [patterns_cover _ hnd, Finset.mem_erase, Finset.mem_powerset]
      exact ⟨Finset.nonempty_iff_ne_empty.mp hc, hsub⟩
    rw [List.mem_toFinset] at hmem
    have hcount := List.count_eq_one_of_mem (patterns_nodup m.neuronIDList hnd) hmem
    simpa [List.map_map, Function.comp_def] using hcount

/-- Witness for claim C1: the universe {1, 2, 3} under an enumeration bound of 24. -/
theorem buildSubsetList_enumerates_witness :
    (exampleManager [1, 2, 3] []).neuronIDList.Nodup ∧
    (exampleManager [1, 2, 3] []).neuronIDList.length ≤
      (exampleManager [1, 2, 3] []).enumerationBound ∧
    ∃ m1, (exampleManager [1, 2, 3] []).buildSubsetList = .ok m1 ∧
      m1.subsetList.length = 2 ^ (exampleManager [1, 2, 3] []).neuronIDList.length - 1 ∧
      (m1.subsetList.map (fun s => s.elements.toFinset)).Nodup ∧
      (∀ s ∈ m1.subsetList, s.elements ≠ [] ∧
        ∀ e ∈ s.elements, e ∈ (exampleManager [1, 2, 3] []).neuronIDList) ∧
      ∀ c : Finset Nat, c.Nonempty → c ⊆ (exampleManager [1, 2, 3] []).neuronIDList.toFinset →
        (m1.subsetList.map (fun s => s.elements.toFinset)).count c = 1 :=
  ⟨by decide, by decide,
   buildSubsetList_enumerates (exampleManager [1, 2, 3] []) (by decide) (by decide)⟩

/-- The scenario of the universe {1, 2, 3}: the enumeration yields the seven subsets
{1}, {2}, {1,2}, {3}, {1,3}, {2,3}, {1,2,3}, in bit-pattern order. -/
theorem buildSubsetList_example :
    ((exampleManager [1, 2, 3] []).buildSubsetList).toOption.map
        (fun m => m.subsetList.map (fun s => s.elements)) =
      some [[1], [2], [1, 2], [3], [1, 3], [2, 3], [1, 2, 3]] := by
  decide

/-! ## Complex identification -/

/-- The accept test of the walk, as a proposition. -/
theorem accept_iff (claimed els : List Nat) :
    els.all (fun e => decide (e ∉ claimed)) = true ↔ ∀ e ∈ els, e ∉ claimed := by
  simp [List.all_eq_true]

/-- The walk marks the subset at a given place exactly when none of its elements was claimed at
the start or belongs to a complex marked earlier in the walk. -/
theorem claimWalk_split (l : List Subset) :
    ∀ (claimed : List Nat), (∀ s ∈ l, s.isComplex = false) →
    ∀ (pre : List Subset) (s : Subset) (post : List Subset),
      (claimWalk claimed l).1 = pre ++ s :: post →
      (s.isComplex = true ↔
        (∀ e ∈ s.elements, e ∉ claimed) ∧
        ∀ c ∈ pre, c.isComplex = true → ∀ e ∈ s.elements, e ∉ c.elements) := by
  induction l with
  | nil =>
    intro claimed _ pre s post h
    simp [claimWalk] at h
  | cons a rest ih =>
    intro claimed hinit pre s post h
    have ha : a.isComplex = false := hinit a (List.mem_cons_self _ _)
    have hrest : ∀ s ∈ rest, s.isComplex = false :=
      fun s hs => hinit s (List.mem_cons_of_mem _ hs)
    by_cases hacc : a.elements.all (fun e => decide (e ∉ claimed)) = true
    · have hacc2 := (accept_iff claimed a.elements).mp hacc
      simp only [claimWalk, hacc, if_true] at h
      cases pre with
      | nil =>
        simp only [List.nil_append, List.cons.injEq] at h
        obtain ⟨hs, _⟩ := h
        subst hs
        simpa using hacc2
      | cons p pre1 =>
        simp only [List.cons_append, List.cons.injEq] at h
        obtain ⟨hp, htail⟩ := h
        subst hp
        rw [ih (claimed ++ a.elements) hrest pre1 s post htail]
        simp only [List.mem_append, not_or, List.mem_cons, forall_eq_or_imp, forall_true_left]
        constructor
        · rintro ⟨h1, h2⟩
          exact ⟨fun e he => (h1 e he).1, fun e he => (h1 e he).2, h2⟩
        · rintro ⟨h1, h2, h3⟩
          exact ⟨fun e he => ⟨h1 e he, h2 e he⟩, h3⟩
    · simp only [claimWalk, hacc, Bool.false_eq_true, if_false] at h
      cases pre with
      | nil =>
        simp only [List.nil_append, List.cons.injEq] at h
        obtain ⟨hs, _⟩ := h
        subst hs
        have hacc2 : ¬ ∀ e ∈ a.elements, e ∉ claimed :=
          fun hc => hacc ((accept_iff claimed a.elements).mpr hc)
        simp only [ha, Bool.false_eq_true, false_iff, not_and]
        intro hc
        exact absurd hc hacc2
      | cons p pre1 =>
        simp only [List.cons_append, List.cons.injEq] at h
        obtain ⟨hp, htail⟩ := h
        subst hp
        rw [ih claimed hrest pre1 s post htail]
        simp only [List.mem_cons, forall_eq_or_imp, ha, Bool.false_eq_true, false_implies,
          true_and]

/-- The walk changes nothing but complex flags. -/
theorem claimWalk_reset (l : List Subset) (claimed : List Nat) :
    (claimWalk claimed l).1.map (fun s => { s with isComplex := false }) =
      l.map (fun s => { s with isComplex := false }) := by
  induction l generalizing claimed with
  | nil => simp [claimWalk]
  | cons a rest ih =>
    by_cases hacc : a.elements.all (fun e => decide (e ∉ claimed)) = true
    · simp only [claimWalk, hacc, if_true, List.map_cons, ih]
    · simp only [claimWalk, hacc, Bool.false_eq_true, if_false, List.map_cons, ih]

/-- The walk counts one signal per marked subset. -/
theorem claimWalk_count (l : List Subset) (claimed : List Nat)
    (hinit : ∀ s ∈ l, s.isComplex = false) :
    (claimWalk claimed l).2 = (claimWalk claimed l).1.countP (fun s => s.isComplex) := by
  induction l generalizing claimed with
  | nil => simp [claimWalk]
  | cons a rest ih =>
    have ha : a.isComplex = false := hinit a (List.mem_cons_self _ _)
    have hrest : ∀ s ∈ rest, s.isComplex = false :=
      fun s hs => hinit s (List.mem_cons_of_mem _ hs)
    by_cases hacc : a.elements.all (fun e => decide (e ∉ claimed)) = true
    · simp only [claimWalk, hacc, if_true]
      rw [List.countP_cons_of_pos _ _ (by simp), ih _ hrest]
    · simp only [claimWalk, hacc, Bool.false_eq_true, if_false]
      rw [List.countP_cons_of_neg _ _ (by simp [ha]), ih _ hrest]

/-- Clearing the complex flag changes nothing on a list whose flags are all false. -/
theorem map_reset_of_init (l : List Subset) (hinit : ∀ s ∈ l, s.isComplex = false) :
    l.map (fun s => { s with isComplex := false }) = l := by
  conv_rhs => rw [← List.map_id l]
  apply List.map_congr_left
  intro s hs
  have := hinit s hs
  cases s
  simp_all

/-- A relation that holds between every element and each element before it holds pairwise. -/
theorem pairwise_of_split {R : Subset → Subset → Prop} (l : List Subset)
    (h : ∀ pre s post, l = pre ++ s :: post → ∀ c ∈ pre, R c s) : l.Pairwise R := by
  induction l with
  | nil => exact List.Pairwise.nil
  | cons a rest ih =>
    rw [List.pairwise_cons]
    constructor
    · intro b hb
      obtain ⟨p, q, rfl⟩ := List.append_of_mem hb
      exact h (a :: p) b q rfl a (List.mem_cons_self _ _)
    · apply ih
      intro pre s post hl c hc
      exact h (a :: pre) s post (by rw [hl]; rfl) c (List.mem_cons_of_mem _ hc)

/-- Sorting keeps the complex flags false. -/
theorem sortByPhi_init (l : List Subset) (hinit : ∀ s ∈ l, s.isComplex = false) :
    ∀ s ∈ sortByPhi l, s.isComplex = false := by
  intro s hs
  exact hinit s ((List.mem_insertionSort _).mp hs)

/-- The sorted list is in descending phi order. -/
theorem sortByPhi_sorted (l : List Subset) :
    (sortByPhi l).Pairwise (fun a b => phiValue a ≥ phiValue b) := by
  haveI : IsTotal Subset (fun a b => phiValue a ≥ phiValue b) :=
    ⟨fun a b => le_total (phiValue b) (phiValue a)⟩
  haveI : IsTrans Subset (fun a b => phiValue a ≥ phiValue b) :=
    ⟨fun a b c hab hbc => le_trans hbc hab⟩
  exact List.sorted_insertionSort _ l



/-- Up to the complex flags, the list after `identifyComplexes` is the sorted input list. -/
theorem identifyComplexes_reset (m : SubsetManager)
    (hinit : ∀ s ∈ m.subsetList, s.isComplex = false) :
    m.identifyComplexes.subsetList.map (fun s => { s with isComplex := false }) =
      sortByPhi m.subsetList := by
  unfold SubsetManager.identifyComplexes
  simp only
  rw [claimWalk_reset, map_reset_of_init _ (sortByPhi_init _ hinit)]

/-- The list after `identifyComplexes` is in descending phi order. -/
theorem identifyComplexes_sorted (m : SubsetManager)
    (hinit : ∀ s ∈ m.subsetList, s.isComplex = false) :
    m.identifyComplexes.subsetList.Pairwise (fun a b => phiValue a ≥ phiValue b) := by
  have h := sortByPhi_sorted m.subsetList
  rw [← identifyComplexes_reset m hinit, List.pairwise_map] at h
  exact h

/-- The subset at a given place after `identifyComplexes` is a complex exactly when none of its
elements belongs to a complex standing earlier in the list. -/
theorem identifyComplexes_split (m : SubsetManager)
    (hinit : ∀ s ∈ m.subsetList, s.isComplex = false)
    (pre : List Subset) (s : Subset) (post : List Subset)
    (h : m.identifyComplexes.subsetList = pre ++ s :: post) :
    (s.isComplex = true ↔
      ∀ c ∈ pre, c.isComplex = true → ∀ e ∈ s.elements, e ∉ c.elements) := by
  have h2 := claimWalk_split (sortByPhi m.subsetList) [] (sortByPhi_init _ hinit) pre s post h
  simpa using h2

/-- Claim C2: on a subset list whose complex flags are still at their initial value false,
`identifyComplexes` never marks two subsets that share an element: any two subsets at different
places of the resulting list that are both complexes have disjoint elements. -/
theorem identifyComplexes_disjoint (m : SubsetManager)
    (hinit : ∀ s ∈ m.subsetList, s.isComplex = false) :
    m.identifyComplexes.subsetList.Pairwise (fun a b =>
      a.isComplex = true → b.isComplex = true → List.Disjoint a.elements b.elements) := by
  apply pairwise_of_split
  intro pre s post hsplit c hc hcc hsc e hec hes
  exact ((identifyComplexes_split m hinit pre s post hsplit).mp hsc) c hc hcc e hes hec

/-- Witness for claim C2: the four ranked subsets over the universe {1, 2, 3, 4}. -/
theorem identifyComplexes_disjoint_witness :
    (∀ s ∈ (exampleManager [1, 2, 3, 4] rankedExample).subsetList, s.isComplex = false) ∧
    (exampleManager [1, 2, 3, 4] rankedExample).identifyComplexes.subsetList.Pairwise (fun a b =>
      a.isComplex = true → b.isComplex = true → List.Disjoint a.elements b.elements) :=
  ⟨by decide, identifyComplexes_disjoint (exampleManager [1, 2, 3, 4] rankedExample) (by decide)⟩

/-- Claim C3: on a subset list whose complex flags are still false, the list after `identifyComplexes`
holds the same subsets in descending phi order, subsets of equal phi keeping their original
enumeration order; a subset of that list is marked as a complex exactly when none of its
elements belongs to a complex standing earlier in the list (so every other subset keeps
`isComplex = false`), and one `complexFound` signal is counted per accepted subset. -/
theorem identifyComplexes_walk (m : SubsetManager)
    (hinit : ∀ s ∈ m.subsetList, s.isComplex = false) :
    (m.identifyComplexes.subsetList.map (fun s => { s with isComplex := false })).Perm
        m.subsetList ∧
      m.identifyComplexes.subsetList.Pairwise (fun a b => phiValue a ≥ phiValue b) ∧
      (∀ a b, List.Sublist [a, b] m.subsetList → phiValue a = phiValue b →
        List.Sublist [a, b]
          (m.identifyComplexes.subsetList.map (fun s => { s with isComplex := false }))) ∧
      (∀ pre s post, m.identifyComplexes.subsetList = pre ++ s :: post →
        (s.isComplex = true ↔
          ∀ c ∈ pre, c.isComplex = true → ∀ e ∈ s.elements, e ∉ c.elements)) ∧
      m.identifyComplexes.complexFound =
        m.complexFound + m.identifyComplexes.subsetList.countP (fun s => s.isComplex) := by
  refine ⟨?_, identifyComplexes_sorted m hinit, ?_, identifyComplexes_split m hinit, ?_⟩
  · rw [identifyComplexes_reset m hinit]
    exact List.perm_insertionSort _ _
  · intro a b hab hphi
    rw [identifyComplexes_reset m hinit]
    exact List.pair_sublist_insertionSort (r := fun a b => phiValue a ≥ phiValue b)
      (le_of_eq hphi.symm) hab
  · unfold SubsetManager.identifyComplexes
    simp only
    rw [claimWalk_count _ _ (sortByPhi_init _ hinit)]

/-- Witness for claim C3: the four ranked subsets over the universe {1, 2, 3, 4}. -/
theorem identifyComplexes_walk_witness :
    (∀ s ∈ (exampleManager [1, 2, 3, 4] rankedExample).subsetList, s.isComplex = false) ∧
    ((exampleManager [1, 2, 3, 4] rankedExample).identifyComplexes.subsetList.map
        (fun s => { s with isComplex := false })).Perm
        (exampleManager [1, 2, 3, 4] rankedExample).subsetList ∧
      (exampleManager [1, 2, 3, 4] rankedExample).identifyComplexes.subsetList.Pairwise
        (fun a b => phiValue a ≥ phiValue b) ∧
      (∀ a b, List.Sublist [a, b] (exampleManager [1, 2, 3, 4] rankedExample).subsetList →
        phiValue a = phiValue b →
        List.Sublist [a, b]
          ((exampleManager [1, 2, 3, 4] rankedExample).identifyComplexes.subsetList.map
            (fun s => { s with isComplex := false }))) ∧
      (∀ pre s post,
        (exampleManager [1, 2, 3, 4] rankedExample).identifyComplexes.subsetList =
          pre ++ s :: post →
        (s.isComplex = true ↔
          ∀ c ∈ pre, c.isComplex = true → ∀ e ∈ s.elements, e ∉ c.elements)) ∧
      (exampleManager [1, 2, 3, 4] rankedExample).identifyComplexes.complexFound =
        (exampleManager [1, 2, 3, 4] rankedExample).complexFound +
          (exampleManager [1, 2, 3, 4] rankedExample).identifyComplexes.subsetList.countP
            (fun s => s.isComplex) :=
  ⟨by decide, identifyComplexes_walk (exampleManager [1, 2, 3, 4] rankedExample) (by decide)⟩

/-- The walk over the four ranked subsets accepts {1, 2} and {3, 4} and rejects {2, 3}
and {4}. -/
theorem identifyComplexes_example :
    (exampleManager [1, 2, 3, 4] rankedExample).identifyComplexes.subsetList =
      [{ elements := [1, 2], phi := some 3, isComplex := true },
       { elements := [2, 3], phi := some 2, isComplex := false },
       { elements := [3, 4], phi := some 1, isComplex := true },
       { elements := [4], phi := some 1, isComplex := false }] := by
  decide

/-- Counterexample to claim C4: after the walk over the four ranked subsets the accepted complex
{3, 4} (phi 1) shares the element 3 with the other subset {2, 3}, whose phi 2 is strictly
higher. ({2, 3} lost to the complex {1, 2}, and its element 3 stayed unclaimed.) -/
theorem identifyComplexes_strict_counterexample :
    ∃ C ∈ (exampleManager [1, 2, 3, 4] rankedExample).identifyComplexes.subsetList,
      ∃ S ∈ (exampleManager [1, 2, 3, 4] rankedExample).identifyComplexes.subsetList,
        C ≠ S ∧ C.isComplex = true ∧ (∃ e ∈ C.elements, e ∈ S.elements) ∧
          phiValue C < phiValue S :=
  ⟨{ elements := [3, 4], phi := some 1, isComplex := true }, by decide,
   { elements := [2, 3], phi := some 2, isComplex := false }, by decide,
   by decide, rfl, ⟨3, by decide, by decide⟩, by decide⟩

/-- Claim C4, amended: on a subset list whose complex flags are still false, every subset `S` of the
resulting list that shares an element with an accepted complex standing elsewhere in the list
is itself no complex, and some accepted complex walked before `S` shares an element with `S`
and has a phi value greater than or equal to that of `S`. -/
theorem identifyComplexes_dominated (m : SubsetManager)
    (hinit : ∀ s ∈ m.subsetList, s.isComplex = false)
    (pre : List Subset) (S : Subset) (post : List Subset)
    (hsplit : m.identifyComplexes.subsetList = pre ++ S :: post)
    (hshare : ∃ C ∈ pre ++ post, C.isComplex = true ∧ ∃ e ∈ C.elements, e ∈ S.elements) :
    S.isComplex = false ∧
      ∃ C1 ∈ pre, C1.isComplex = true ∧ (∃ e ∈ C1.elements, e ∈ S.elements) ∧
        phiValue C1 ≥ phiValue S := by
  have hS : S.isComplex = false := by
    obtain ⟨C, hC, hCc, e, heC, heS⟩ := hshare
    cases hb : S.isComplex with
    | false => rfl
    | true =>
      exfalso
      rcases List.mem_append.mp hC with hpre | hpost
      · exact ((identifyComplexes_split m hinit pre S post hsplit).mp hb) C hpre hCc e heS heC
      · obtain ⟨p, q, rfl⟩ := List.append_of_mem hpost
        have hsplit2 : m.identifyComplexes.subsetList = (pre ++ S :: p) ++ C :: q := by
          rw [hsplit]; simp
        exact ((identifyComplexes_split m hinit _ C q hsplit2).mp hCc) S (by simp) hb e heC heS
  refine ⟨hS, ?_⟩
  have hnot : ¬ ∀ c ∈ pre, c.isComplex = true → ∀ e ∈ S.elements, e ∉ c.elements := by
    intro hall
    have := (identifyComplexes_split m hinit pre S post hsplit).mpr hall
    rw [hS] at this
    exact Bool.false_ne_true this
  push_neg at hnot
  obtain ⟨C1, hC1, hC1c, e, heS, heC1⟩ := hnot
  refine ⟨C1, hC1, hC1c, ⟨e, heC1, heS⟩, ?_⟩
  have hsorted := identifyComplexes_sorted m hinit
  rw [hsplit, List.pairwise_append] at hsorted
  exact hsorted.2.2 C1 hC1 S (List.mem_cons_self _ _)

/-- Witness for claim C4 as amended: the subset {2, 3} of the four ranked subsets, which shares the
element 2 with the accepted complex {1, 2}. -/
theorem identifyComplexes_dominated_witness :
    ({ elements := [2, 3], phi := some 2, isComplex := false } : Subset).isComplex = false ∧
      ∃ C1 ∈ [({ elements := [1, 2], phi := some 3, isComplex := true } : Subset)],
        C1.isComplex = true ∧ (∃ e ∈ C1.elements, e ∈ [2, 3]) ∧
          phiValue C1 ≥ phiValue { elements := [2, 3], phi := some 2, isComplex := false } :=
  identifyComplexes_dominated (exampleManager [1, 2, 3, 4] rankedExample) (by decide)
    [{ elements := [1, 2], phi := some 3, isComplex := true }]
    { elements := [2, 3], phi := some 2, isComplex := false }
    [{ elements := [3, 4], phi := some 1, isComplex := true },
     { elements := [4], phi := some 1, isComplex := false }]
    (by decide)
    ⟨{ elements := [1, 2], phi := some 3, isComplex := true }, by decide, rfl,
      2, by decide, by decide⟩

/-! ## Phi computation and orchestration -/

/-- A single element has no bipartition. -/
theorem bipartitions_singleton (e : Nat) : bipartitions [e] = [] := by
  simp [bipartitions]

/-- Claim C5: for every state data, every information distance and every subset of exactly one
element, the phi value recorded for the subset is 0; the calculator itself returns 0 (a
singleton has no bipartition), unless the element never fires in the recorded data, in which
case it reports insufficient data and the phi pass records 0. -/
theorem phi_singleton_zero (pc : PhiCalculator) (s : Subset) (h : s.elements.length = 1) :
    (phiStep pc s).phi = some 0 ∧
      (pc.getSubsetPhi s.elements = .ok 0 ∨
        (coOccur s.elements pc.stateData = false ∧
          pc.getSubsetPhi s.elements = .error PhiError.insufficientData)) := by
  obtain ⟨e, he⟩ := List.length_eq_one.mp h
  unfold phiStep PhiCalculator.getSubsetPhi
  rw [he, bipartitions_singleton]
  by_cases hco : coOccur [e] pc.stateData = true
  · simp [hco, minimumDistance]
  · simp [hco, minimumDistance]

/-- Witness for claim C5: the singleton {7} over three recorded time steps. -/
theorem phi_singleton_zero_witness :
    ([7] : List Nat).length = 1 ∧
    (phiStep { stateData := [(0, [7]), (1, []), (2, [7])], infoDistance := fun _ _ _ => 5 }
        { elements := [7], phi := none, isComplex := false }).phi = some 0 ∧
      (PhiCalculator.getSubsetPhi
          { stateData := [(0, [7]), (1, []), (2, [7])], infoDistance := fun _ _ _ => 5 }
          [7] = .ok 0 ∨
        (coOccur [7] [(0, [7]), (1, []), (2, [7])] = false ∧
          PhiCalculator.getSubsetPhi
            { stateData := [(0, [7]), (1, []), (2, [7])], infoDistance := fun _ _ _ => 5 }
            [7] = .error PhiError.insufficientData)) :=
  ⟨rfl, phi_singleton_zero
    { stateData := [(0, [7]), (1, []), (2, [7])], infoDistance := fun _ _ _ => 5 }
    { elements := [7], phi := none, isComplex := false } rfl⟩

/-- The phi step always leaves a computed phi value. -/
theorem phiStep_phi (pc : PhiCalculator) (s : Subset) : (phiStep pc s).phi ≠ none := by
  unfold phiStep
  split <;> simp

/-- The phi step leaves the complex flag as it is. -/
theorem phiStep_isComplex (pc : PhiCalculator) (s : Subset) :
    (phiStep pc s).isComplex = s.isComplex := by
  unfold phiStep
  split <;> rfl

/-- The phi pass when the stop flag reads false at the first `K` polls and, if subsets remain,
true at the next one: exactly the first `K` subsets are processed and `K` progress signals are
emitted. -/
theorem phiPass_spec (pc : PhiCalculator) (stop : Nat → Bool) (timeStep totalSteps : Nat)
    (l : List Subset) :
    ∀ (reads completed K : Nat), K ≤ l.length →
      (∀ i, i < K → stop (reads + i) = false) →
      (K < l.length → stop (reads + K) = true) →
      (phiPass pc stop timeStep totalSteps reads completed l).subsets =
          (l.take K).map (phiStep pc) ++ l.drop K ∧
        (phiPass pc stop timeStep totalSteps reads completed l).aborted = decide (K < l.length) ∧
        (phiPass pc stop timeStep totalSteps reads completed l).reads =
          (if K < l.length then reads + K + 1 else reads + K) ∧
        (phiPass pc stop timeStep totalSteps reads completed l).progress =
          (List.range K).map (fun j => (timeStep, completed + j + 1, totalSteps)) := by
  induction l with
  | nil =>
    intro reads completed K hK _ _
    have hK0 : K = 0 := by simpa using hK
    subst hK0
    simp [phiPass]
  | cons a rest ih =>
    intro reads completed K hK hfalse htrue
    cases K with
    | zero =>
      have hs : stop reads = true := by simpa using htrue (by simp)
      simp [phiPass, hs]
    | succ K =>
      have hs : stop reads = false := by simpa using hfalse 0 (Nat.succ_pos K)
      have hK2 : K ≤ rest.length := by simpa using hK
      obtain ⟨h1, h2, h3, h4⟩ := ih (reads + 1) (completed + 1) K hK2
        (fun i hi => by
          have := hfalse (i + 1) (Nat.succ_lt_succ hi)
          rwa [show reads + (i + 1) = reads + 1 + i by omega] at this)
        (fun hlt => by
          have := htrue (by simpa using hlt)
          rwa [show reads + (K + 1) = reads + 1 + K by omega] at this)
      simp only [phiPass, hs, Bool.false_eq_true, if_false, h1, h2, h3, h4]
      refine ⟨by simp, by simp, ?_, ?_⟩
      · simp only [List.length_cons, Nat.add_lt_add_iff_right]
        split <;> omega
      · rw [List.range_succ_eq_map]
        simp [Function.comp_def]
        intro i _
        omega


/-- The enumerated subsets have no phi value and are no complexes. -/
theorem enumerated_fresh (ids : List Nat) :
    ∀ s ∈ (List.range' 1 (2 ^ ids.length - 1)).map (fun k =>
        ({ elements := selectedIDs ids (selectionArray ids.length k),
           phi := none, isComplex := false } : Subset)),
      s.phi = none ∧ s.isComplex = false := by
  intro s hs
  rw [List.mem_map] at hs
  obtain ⟨k, _, rfl⟩ := hs
  exact ⟨rfl, rfl⟩

/-- The run that is stopped after `K` subsets ends in the aborted phase with the first `K`
enumerated subsets processed by the phi step and the others untouched. -/
theorem runCalculation_subsets (m : SubsetManager) (stop : Nat → Bool) (K : Nat)
    (hbound : m.neuronIDList.length ≤ m.enumerationBound)
    (hK : K ≤ 2 ^ m.neuronIDList.length - 1)
    (hfalse : ∀ i, i < K → stop i = false) (htrue : stop K = true) :
    ∃ m1, m.runCalculation stop = .ok m1 ∧ m1.phase = Phase.aborted ∧
      m1.subsetList =
        (((List.range' 1 (2 ^ m.neuronIDList.length - 1)).map (fun k =>
          ({ elements := selectedIDs m.neuronIDList (selectionArray m.neuronIDList.length k),
             phi := none, isComplex := false } : Subset))).take K).map
            (phiStep m.phiCalculator) ++
        ((List.range' 1 (2 ^ m.neuronIDList.length - 1)).map (fun k =>
          ({ elements := selectedIDs m.neuronIDList (selectionArray m.neuronIDList.length k),
             phi := none, isComplex := false } : Subset))).drop K ∧
      m1.complexFound = m.complexFound ∧
      m1.progress = m.progress ++
        (List.range K).map (fun j => (m.timeStep, j + 1, 2 ^ m.neuronIDList.length - 1)) := by
  have hb := buildSubsetList_eq
    { m with stop := stop, stopReads := 0, phase := Phase.enumerating } hbound
  simp only at hb
  have hlen : ((List.range' 1 (2 ^ m.neuronIDList.length - 1)).map (fun k =>
      ({ elements := selectedIDs m.neuronIDList (selectionArray m.neuronIDList.length k),
         phi := none, isComplex := false } : Subset))).length =
        2 ^ m.neuronIDList.length - 1 := by simp
  obtain ⟨h1, h2, h3, h4⟩ := phiPass_spec m.phiCalculator stop m.timeStep
    (2 ^ m.neuronIDList.length - 1) _ 0 0 K (by rw [hlen]; exact hK)
    (fun i hi => by simpa using hfalse i hi) (fun _ => by simpa using htrue)
  unfold SubsetManager.runCalculation
  rw [hb]
  simp only [SubsetManager.calculateSubsetsPhi, hlen]
  rw [hlen] at h2 h3
  simp only [Nat.zero_add] at h3 h4
  by_cases hlt : K < 2 ^ m.neuronIDList.length - 1
  · simp only [h2, hlt, decide_True, if_true]
    exact ⟨_, rfl, rfl, h1, rfl, by simp only [h4]⟩
  · simp only [h2, h3, hlt, decide_False, Bool.false_eq_true, if_false, htrue, if_true]
    rw [if_neg (show ¬ Phase.computingPhi = Phase.aborted by decide)]
    exact ⟨_, rfl, rfl, h1, rfl, by simp only [h4]⟩


/-- Claim C6: when the enumeration succeeds and the stop flag reads false at the first `K`
polls and true at the next one, with `K` at most the number `M = 2^N - 1` of subsets,
`runCalculation` ends in the aborted phase with all `M` subsets in the list: exactly the first
`K` hold a computed phi, the remaining `M - K` are still uncomputed, `isComplex` is false on
every subset, no `complexFound` signal was emitted and `K` progress signals were. -/
theorem runCalculation_abort (m : SubsetManager) (stop : Nat → Bool) (K : Nat)
    (hbound : m.neuronIDList.length ≤ m.enumerationBound)
    (hK : K ≤ 2 ^ m.neuronIDList.length - 1)
    (hfalse : ∀ i, i < K → stop i = false) (htrue : stop K = true) :
    ∃ m1, m.runCalculation stop = .ok m1 ∧ m1.phase = Phase.aborted ∧
      m1.subsetList.length = 2 ^ m.neuronIDList.length - 1 ∧
      (∀ s ∈ m1.subsetList.take K, s.phi ≠ none) ∧
      (∀ s ∈ m1.subsetList.drop K, s.phi = none) ∧
      m1.subsetList.countP (fun s => s.phi.isSome) = K ∧
      (∀ s ∈ m1.subsetList, s.isComplex = false) ∧
      m1.complexFound = m.complexFound ∧
      m1.progress = m.progress ++
        (List.range K).map (fun j => (m.timeStep, j + 1, 2 ^ m.neuronIDList.length - 1)) := by
  obtain ⟨m1, hrun, hphase, hsub, hfound, hprog⟩ :=
    runCalculation_subsets m stop K hbound hK hfalse htrue
  have hfresh := enumerated_fresh m.neuronIDList
  have hlenL : ((List.range' 1 (2 ^ m.neuronIDList.length - 1)).map (fun k =>
      ({ elements := selectedIDs m.neuronIDList (selectionArray m.neuronIDList.length k),
         phi := none, isComplex := false } : Subset))).length =
        2 ^ m.neuronIDList.length - 1 := by simp
  generalize (List.range' 1 (2 ^ m.neuronIDList.length - 1)).map (fun k =>
      ({ elements := selectedIDs m.neuronIDList (selectionArray m.neuronIDList.length k),
         phi := none, isComplex := false } : Subset)) = L at hsub hfresh hlenL
  have hlenA : ((L.take K).map (phiStep m.phiCalculator)).length = K := by
    simp only [List.length_map, List.length_take]
    omega
  have htake : m1.subsetList.take K = (L.take K).map (phiStep m.phiCalculator) := by
    rw [hsub]; exact List.take_left' hlenA
  have hdrop : m1.subsetList.drop K = L.drop K := by
    rw [hsub]; exact List.drop_left' hlenA
  have hA : ∀ s ∈ m1.subsetList.take K, s.phi ≠ none := by
    rw [htake]
    intro s hs
    rw [List.mem_map] at hs
    obtain ⟨t, _, rfl⟩ := hs
    exact phiStep_phi _ t
  have hB : ∀ s ∈ m1.subsetList.drop K, s.phi = none := by
    rw [hdrop]
    intro s hs
    exact (hfresh s (List.mem_of_mem_drop hs)).1
  refine ⟨m1, hrun, hphase, ?_, hA, hB, ?_, ?_, hfound, hprog⟩
  · rw [hsub]
    simp only [List.length_append, List.length_map, List.length_take, List.length_drop]
    omega
  · rw [← List.take_append_drop K m1.subsetList, List.countP_append,
      List.countP_eq_length.mpr (fun s hs => by
        have := hA s hs
        cases hphi : s.phi with
        | none => exact absurd hphi this
        | some v => rfl),
      List.countP_eq_zero.mpr (fun s hs => by simp [hB s hs]), htake, hlenA, Nat.add_zero]
  · rw [hsub]
    intro s hs
    rcases List.mem_append.mp hs with h | h
    · rw [List.mem_map] at h
      obtain ⟨t, ht, rfl⟩ := h
      rw [phiStep_isComplex]
      exact (hfresh t (List.mem_of_mem_take ht)).2
    · exact (hfresh s (List.mem_of_mem_drop h)).2

/-- Witness for claim C6: the universe {1, 2, 3} (seven subsets) with the stop flag set after
two subsets. -/
theorem runCalculation_abort_witness :
    (∀ i, i < 2 → decide (2 ≤ i) = false) ∧ decide (2 ≤ 2) = true ∧
    ∃ m1, (exampleManager [1, 2, 3] []).runCalculation (fun i => decide (2 ≤ i)) = .ok m1 ∧
      m1.phase = Phase.aborted ∧
      m1.subsetList.length = 2 ^ (exampleManager [1, 2, 3] []).neuronIDList.length - 1 ∧
      (∀ s ∈ m1.subsetList.take 2, s.phi ≠ none) ∧
      (∀ s ∈ m1.subsetList.drop 2, s.phi = none) ∧
      m1.subsetList.countP (fun s => s.phi.isSome) = 2 ∧
      (∀ s ∈ m1.subsetList, s.isComplex = false) ∧
      m1.complexFound = (exampleManager [1, 2, 3] []).complexFound ∧
      m1.progress = (exampleManager [1, 2, 3] []).progress ++
        (List.range 2).map (fun j => ((exampleManager [1, 2, 3] []).timeStep, j + 1,
          2 ^ (exampleManager [1, 2, 3] []).neuronIDList.length - 1)) :=
  ⟨by decide, by decide,
   runCalculation_abort (exampleManager [1, 2, 3] []) (fun i => decide (2 ≤ i)) 2
    (by decide) (by decide) (by decide) (by decide)⟩

/-! ## Position keys -/

/-- The key arithmetic of `getPositionKey` for in-range x and y and z = 0. -/
theorem key_arith (a b : Nat) (ha : a ≤ 2097151) (hb : b ≤ 2097151) :
    (((a % 2 ^ 64) <<< 21) % 2 ^ 64 ||| (b % 2 ^ 64)) ||| (0 % 2 ^ 64) = a * 2097152 + b := by
  have h1 : a % 2 ^ 64 = a := Nat.mod_eq_of_lt (by omega)
  have h2 : b % 2 ^ 64 = b := Nat.mod_eq_of_lt (by omega)
  have h3 : (a <<< 21) % 2 ^ 64 = 2 ^ 21 * a := by
    rw [Nat.shiftLeft_eq, Nat.mod_eq_of_lt (by omega), Nat.mul_comm]
  have hb21 : b < 2 ^ 21 := by omega
  rw [h1, h2, h3, Nat.zero_mod, Nat.or_zero, ← Nat.mul_add_lt_is_or hb21]
  omega

/-- The inputs `getPositionKey` accepts, and the key it returns for them. -/
theorem getPositionKey_ok_iff (xPos yPos zPos : Int) (k : Nat) :
    getPositionKey xPos yPos zPos = .ok k ↔
      (0 ≤ xPos ∧ xPos ≤ 2097151 ∧ 0 ≤ yPos ∧ yPos ≤ 2097151 ∧ zPos = 0 ∧
        k = xPos.toNat * 2097152 + yPos.toNat) := by
  unfold getPositionKey
  by_cases h1 : xPos < 0 ∨ yPos < 0 ∨ zPos < 0
  · simp only [h1, if_true]
    constructor
    · intro h; cases h
    · intro h; omega
  · simp only [h1, if_false]
    by_cases h2 : xPos > 2097151 ∨ yPos > 2097151 ∨ zPos ≠ 0
    · simp only [h2, if_true]
      constructor
      · intro h; cases h
      · intro h; omega
    · simp only [h2, if_false]
      have hz : zPos = 0 := by omega
      subst hz
      rw [show (0 : Int).toNat = 0 from rfl, key_arith xPos.toNat yPos.toNat (by omega) (by omega)]
      constructor
      · intro h
        injection h with h
        omega
      · rintro ⟨_, _, _, _, _, hk⟩
        rw [hk]

/-- Claim C10: for two positions that `getPositionKey` both accepts, the lexicographically
smaller position (x, then y, then z) receives the strictly smaller key, and distinct accepted
positions receive distinct keys. -/
theorem getPositionKey_ordered (p q : Int × Int × Int) (k1 k2 : Nat)
    (hp : getPositionKey p.1 p.2.1 p.2.2 = .ok k1)
    (hq : getPositionKey q.1 q.2.1 q.2.2 = .ok k2) :
    (lexLess p q → k1 < k2) ∧ (p ≠ q → k1 ≠ k2) := by
  obtain ⟨px, py, pz⟩ := p
  obtain ⟨qx, qy, qz⟩ := q
  rw [getPositionKey_ok_iff] at hp hq
  simp only at hp hq
  obtain ⟨hp1, hp2, hp3, hp4, hp5, hp6⟩ := hp
  obtain ⟨hq1, hq2, hq3, hq4, hq5, hq6⟩ := hq
  subst hp5 hq5
  constructor
  · intro hlex
    unfold lexLess at hlex
    simp only at hlex
    omega
  · intro hne hk
    apply hne
    have hx : px = qx := by omega
    have hy : py = qy := by omega
    rw [hx, hy]

/-- Witness for claim C10: the accepted positions (0, 5, 0) and (1, 0, 0), with keys 5 and
2097152. -/
theorem getPositionKey_ordered_witness :
    lexLess (0, 5, 0) (1, 0, 0) ∧ ((0, 5, 0) : Int × Int × Int) ≠ (1, 0, 0) ∧
      (5 : Nat) < 2097152 ∧ (5 : Nat) ≠ 2097152 :=
  ⟨by decide, by decide,
   (getPositionKey_ordered (0, 5, 0) (1, 0, 0) 5 2097152 rfl rfl).1 (by decide),
   (getPositionKey_ordered (0, 5, 0) (1, 0, 0) 5 2097152 rfl rfl).2 (by decide)⟩

/-- The point `getPointFromPositionKey` returns: every coordinate is 0 for the key 0 and 1 for
any other key. -/
theorem getPointFromPositionKey_eq (positionKey : Nat) :
    getPointFromPositionKey positionKey =
      if positionKey = 0 then { xPos := 0, yPos := 0, zPos := 0 }
      else { xPos := 1, yPos := 1, zPos := 1 } := by
  unfold getPointFromPositionKey
  by_cases h : positionKey = 0
  · simp [h, boolToNat]
  · simp [h, boolToNat]

/-- Claim C8 at the position (2, 3, 0): encoding gives the key 4194307, and decoding that key
gives the point (1, 1, 1), not (2, 3, 0). -/
theorem positionKey_roundtrip_fails :
    getPositionKey 2 3 0 = .ok 4194307 ∧
      getPointFromPositionKey 4194307 = { xPos := 1, yPos := 1, zPos := 1 } ∧
      getPointFromPositionKey 4194307 ≠ { xPos := 2, yPos := 3, zPos := 0 } :=
  ⟨rfl, by decide, by decide⟩

/-- Claim C9 at the position (0, 0, 1): every coordinate lies in 0..2097151, yet
`getPositionKey` throws the out-of-range error. -/
theorem getPositionKey_rejects_z :
    getPositionKey 0 0 1 =
      .error "X, Y or Z position out of range. Must be less than or equal to 2097151." :=
  rfl

/-! ## ConnectionGroup -/

/-- Indexing a stored key returns its value and leaves the hash as it is. -/
theorem qhash_index_of_contains {α : Type} (h : QHash α) (key : Nat) (dflt : α)
    (hc : h.contains key = true) :
    h.index key dflt = ((h key).getD dflt, h) := by
  unfold QHash.contains at hc
  unfold QHash.index
  cases hk : h key with
  | none => rw [hk] at hc; cases hc
  | some v => rfl

/-- Indexing a missing key inserts and returns the default value. -/
theorem qhash_index_of_not_contains {α : Type} (h : QHash α) (key : Nat) (dflt : α)
    (hc : h.contains key = false) :
    h.index key dflt = (dflt, h.insert key dflt) := by
  unfold QHash.contains at hc
  unfold QHash.index
  cases hk : h key with
  | none => rfl
  | some v => rw [hk] at hc; cases hc

/-- The value an indexing returns. -/
theorem qhash_index_fst {α : Type} (h : QHash α) (key : Nat) (dflt : α) :
    (h.index key dflt).1 = (h key).getD dflt := by
  unfold QHash.index
  cases h key <;> rfl

/-- The key test of a hash, as a proposition. -/
theorem qhash_contains_eq_false {α : Type} (h : QHash α) (key : Nat) :
    h.contains key = false ↔ h key = none := by
  unfold QHash.contains
  cases h key <;> simp

/-- The lookup after `hash[key] = v`, whether or not the indexing inserted a default first. -/
theorem qhash_insert_index {α : Type} (h : QHash α) (key : Nat) (dflt v : α) (k : Nat) :
    ((h.index key dflt).2.insert key v) k = if k = key then some v else h k := by
  unfold QHash.index QHash.insert
  cases h key with
  | none => by_cases hk : k = key <;> simp [hk]
  | some w => rfl

/-- A failing `addConnection`: the ID is already in the connection map, a message is thrown and
the group is left as it is. -/
theorem addConnection_of_present (g : ConnectionGroup) (newConn : ConnPtr)
    (h : g.connectionMap (g.memory newConn).id ≠ none) :
    (∃ msg, (g.addConnection newConn).1 = .error msg) ∧ (g.addConnection newConn).2 = g := by
  have hc : g.connectionMap.contains (g.memory newConn).id = true := by
    cases hb : g.connectionMap.contains (g.memory newConn).id with
    | true => rfl
    | false => exact absurd ((qhash_contains_eq_false _ _).mp hb) h
  unfold ConnectionGroup.addConnection
  rw [if_pos hc]
  exact ⟨⟨_, rfl⟩, rfl⟩

/-- A successful `addConnection`: the pointer is returned, stored under the connection's ID and
appended to the from and to lists of its two neurons; nothing else changes. -/
theorem addConnection_of_absent (g : ConnectionGroup) (newConn : ConnPtr)
    (h : g.connectionMap (g.memory newConn).id = none) :
    (g.addConnection newConn).1 = .ok newConn ∧
      (g.addConnection newConn).2.memory = g.memory ∧
      (∀ k, (g.addConnection newConn).2.connectionMap k =
        if k = (g.memory newConn).id then some newConn else g.connectionMap k) ∧
      (∀ n, (g.addConnection newConn).2.fromConnectionMap n =
        if n = (g.memory newConn).fromNeuronID then
          some ((g.fromConnectionMap n).getD [] ++ [newConn])
        else g.fromConnectionMap n) ∧
      (∀ n, (g.addConnection newConn).2.toConnectionMap n =
        if n = (g.memory newConn).toNeuronID then
          some ((g.toConnectionMap n).getD [] ++ [newConn])
        else g.toConnectionMap n) := by
  have hc : ¬ g.connectionMap.contains (g.memory newConn).id = true := by
    rw [(qhash_contains_eq_false _ _).mpr h]
    exact Bool.false_ne_true
  unfold ConnectionGroup.addConnection
  rw [if_neg hc]
  refine ⟨rfl, rfl, fun k => rfl, fun n => ?_, fun n => ?_⟩
  · show ((g.fromConnectionMap.index _ []).2.insert _ _) n = _
    rw [qhash_insert_index, qhash_index_fst]
    by_cases hn : n = (g.memory newConn).fromNeuronID
    · simp [hn]
    · simp [hn]
  · show ((g.toConnectionMap.index _ []).2.insert _ _) n = _
    rw [qhash_insert_index, qhash_index_fst]
    by_cases hn : n = (g.memory newConn).toNeuronID
    · simp [hn]
    · simp [hn]

/-- Claim C11: `addConnection` throws if and only if the connection map already holds the ID of
the new connection, and then the group (connection map, from and to indexes) is left unchanged;
otherwise it returns the connection, stores it under its ID and appends it to the from list of
its source neuron and the to list of its target neuron, leaving everything else as it was. -/
theorem addConnection_spec (g : ConnectionGroup) (newConn : ConnPtr) :
    ((∃ msg, (g.addConnection newConn).1 = .error msg) ↔
        g.connectionMap (g.memory newConn).id ≠ none) ∧
      ((∃ msg, (g.addConnection newConn).1 = .error msg) → (g.addConnection newConn).2 = g) ∧
      (g.connectionMap (g.memory newConn).id = none →
        (g.addConnection newConn).1 = .ok newConn ∧
        (g.addConnection newConn).2.memory = g.memory ∧
        (∀ k, (g.addConnection newConn).2.connectionMap k =
          if k = (g.memory newConn).id then some newConn else g.connectionMap k) ∧
        (∀ n, (g.addConnection newConn).2.fromConnectionMap n =
          if n = (g.memory newConn).fromNeuronID then
            some ((g.fromConnectionMap n).getD [] ++ [newConn])
          else g.fromConnectionMap n) ∧
        (∀ n, (g.addConnection newConn).2.toConnectionMap n =
          if n = (g.memory newConn).toNeuronID then
            some ((g.toConnectionMap n).getD [] ++ [newConn])
          else g.toConnectionMap n)) := by
  have hiff : (∃ msg, (g.addConnection newConn).1 = .error msg) ↔
      g.connectionMap (g.memory newConn).id ≠ none := by
    constructor
    · rintro ⟨msg, hmsg⟩ hnone
      rw [(addConnection_of_absent g newConn hnone).1] at hmsg
      cases hmsg
    · intro h
      exact (addConnection_of_present g newConn h).1
  exact ⟨hiff, fun h => (addConnection_of_present g newConn (hiff.mp h)).2,
    addConnection_of_absent g newConn⟩

/-- Witness for claim C11: adding the connection at address 3, whose ID 7 is already in the
example group, throws and leaves the group unchanged. -/
theorem addConnection_spec_witness :
    (∃ msg, (exampleGroup.addConnection 3).1 = .error msg) ∧
      (exampleGroup.addConnection 3).2 = exampleGroup ∧
      ((ConnectionGroup.empty exampleMemory).addConnection 1).1 = .ok 1 :=
  ⟨⟨_, rfl⟩, (addConnection_spec exampleGroup 3).2.1 ⟨_, rfl⟩,
   ((addConnection_spec (ConnectionGroup.empty exampleMemory) 1).2.2 rfl).1⟩

/-- One step of index maintenance keeps an index in agreement with the connection map. -/
theorem index_step (memory : ConnPtr → Connection) (cm : QHash ConnPtr)
    (idx : QHash (List ConnPtr)) (f : Connection → Nat) (q : ConnPtr)
    (hnone : cm (memory q).id = none)
    (h : ∀ n p, p ∈ (idx n).getD [] ↔ (cm (memory p).id = some p ∧ f (memory p) = n))
    (n : Nat) (p : ConnPtr) :
    p ∈ (if n = f (memory q) then some ((idx n).getD [] ++ [q]) else idx n).getD [] ↔
      ((if (memory p).id = (memory q).id then some q else cm (memory p).id) = some p ∧
        f (memory p) = n) := by
  by_cases hp : p = q
  · subst hp
    have hnot : ∀ m, p ∉ (idx m).getD [] := by
      intro m hm
      rw [((h m p).mp hm).1] at hnone
      cases hnone
    by_cases hn : n = f (memory p)
    · simp [hn]
    · simp only [hn, if_false, if_true]
      constructor
      · intro hm; exact absurd hm (hnot n)
      · rintro ⟨_, hf⟩; exact absurd hf.symm hn
  · by_cases hid : (memory p).id = (memory q).id
    · have hnot : ∀ m, p ∉ (idx m).getD [] := by
        intro m hm
        rw [← hid, ((h m p).mp hm).1] at hnone
        cases hnone
      simp only [hid, if_true]
      constructor
      · intro hm
        by_cases hn : n = f (memory q)
        · simp only [hn, if_true, Option.getD_some, List.mem_append, List.mem_singleton] at hm
          rcases hm with hm | hm
          · exact absurd hm (hnot _)
          · exact absurd hm hp
        · simp only [hn, if_false] at hm
          exact absurd hm (hnot n)
      · rintro ⟨hq, _⟩
        exact absurd (Option.some.inj hq).symm hp
    · simp only [hid, if_false]
      rw [← h n p]
      by_cases hn : n = f (memory q)
      · simp only [hn, if_true, Option.getD_some, List.mem_append, List.mem_singleton]
        constructor
        · rintro (hm | hm)
          · exact hm
          · exact absurd hm hp
        · intro hm; exact Or.inl hm
      · simp only [hn, if_false]

/-- The group the constructor leaves has consistent indexes. -/
theorem empty_consistent (memory : ConnPtr → Connection) :
    (ConnectionGroup.empty memory).indexesConsistent := by
  constructor <;> intro n p <;> simp [ConnectionGroup.empty]

/-- A successful `addConnection` keeps the indexes consistent. -/
theorem addConnection_consistent (g : ConnectionGroup) (newConn : ConnPtr)
    (hcons : g.indexesConsistent) :
    (g.addConnection newConn).2.indexesConsistent := by
  by_cases h : g.connectionMap (g.memory newConn).id = none
  · obtain ⟨_, hmem, hcm, hfrom, hto⟩ := addConnection_of_absent g newConn h
    constructor
    · intro n p
      rw [hfrom, hmem, hcm]
      exact index_step g.memory g.connectionMap g.fromConnectionMap
        (fun c => c.fromNeuronID) newConn h hcons.1 n p
    · intro n p
      rw [hto, hmem, hcm]
      exact index_step g.memory g.connectionMap g.toConnectionMap
        (fun c => c.toNeuronID) newConn h hcons.2 n p
  · rw [(addConnection_of_present g newConn h).2]
    exact hcons

/-- The example group has consistent indexes. -/
theorem exampleGroup_consistent : exampleGroup.indexesConsistent :=
  addConnection_consistent _ 2 (addConnection_consistent _ 1 (empty_consistent exampleMemory))


/-- The connection map of the example group: ID 7 at address 1 and ID 8 at address 2. -/
theorem exampleGroup_connectionMap (k : Nat) (p : ConnPtr)
    (h : exampleGroup.connectionMap k = some p) : (k = 7 ∧ p = 1) ∨ (k = 8 ∧ p = 2) := by
  have hk : exampleGroup.connectionMap k =
      if k = 8 then some 2 else if k = 7 then some 1 else none := rfl
  rw [hk] at h
  by_cases h8 : k = 8
  · rw [if_pos h8] at h
    exact Or.inr ⟨h8, (Option.some.inj h).symm⟩
  · rw [if_neg h8] at h
    by_cases h7 : k = 7
    · rw [if_pos h7] at h
      exact Or.inl ⟨h7, (Option.some.inj h).symm⟩
    · rw [if_neg h7] at h
      cases h

/-- The lookup `getFromConnections` never changes the group. -/
theorem getFromConnections_frame (g : ConnectionGroup) (neurID : Nat) :
    (g.getFromConnections neurID).2 = g ∧
      (g.getFromConnections neurID).1 = .ok ((g.fromConnectionMap neurID).getD []) := by
  unfold ConnectionGroup.getFromConnections
  cases hc : g.fromConnectionMap.contains neurID with
  | false =>
    have hnone := (qhash_contains_eq_false _ _).mp hc
    simp [hnone]
  | true =>
    simp [qhash_index_of_contains _ _ _ hc]

/-- The lookup `getToConnections` never changes the group and never throws. -/
theorem getToConnections_frame (g : ConnectionGroup) (neurID : Nat) :
    (g.getToConnections neurID).2 = g ∧
      (g.getToConnections neurID).1 = .ok ((g.toConnectionMap neurID).getD []) := by
  unfold ConnectionGroup.getToConnections
  cases hc : g.toConnectionMap.contains neurID with
  | false =>
    have hnone := (qhash_contains_eq_false _ _).mp hc
    simp [hnone]
  | true =>
    simp [qhash_index_of_contains _ _ _ hc]

/-- Counterexample to claim C12: no connection of the example group leads to neuron 10, and
`getToConnections` returns the empty list for it instead of throwing. -/
theorem getToConnections_counterexample :
    (∀ k p, exampleGroup.connectionMap k = some p →
      (exampleGroup.memory p).toNeuronID ≠ 10) ∧
    (exampleGroup.getToConnections 10).1 = .ok [] :=
  ⟨fun k p h => by
     rcases exampleGroup_connectionMap k p h with ⟨_, hp⟩ | ⟨_, hp⟩ <;> subst hp <;> decide,
   rfl⟩

/-- Claim C12, amended: `getToConnections` never throws and leaves the group unchanged; it
returns the list that the to index holds for the neuron ID, the empty list when there is no
entry.  In a group with consistent indexes these are exactly the connections of the group that
lead to the neuron ID, so the result is empty whenever no connection of the group leads to
it. -/
theorem getToConnections_spec (g : ConnectionGroup) (neurID : Nat) :
    ∃ l, (g.getToConnections neurID).1 = .ok l ∧ (g.getToConnections neurID).2 = g ∧
      l = (g.toConnectionMap neurID).getD [] ∧
      (g.indexesConsistent →
        (∀ p, p ∈ l ↔
          (g.connectionMap (g.memory p).id = some p ∧ (g.memory p).toNeuronID = neurID)) ∧
        ((∀ k p, g.connectionMap k = some p → (g.memory p).toNeuronID ≠ neurID) →
          l = [])) := by
  refine ⟨_, (getToConnections_frame g neurID).2, (getToConnections_frame g neurID).1, rfl,
    fun hcons => ⟨fun p => hcons.2 neurID p, fun hnone => ?_⟩⟩
  apply List.eq_nil_iff_forall_not_mem.mpr
  intro p hp
  have := (hcons.2 neurID p).mp hp
  exact hnone _ p this.1 this.2

/-- Witness for claim C12 as amended: the connections to neuron 20 in the example group are
the one at address 1. -/
theorem getToConnections_spec_witness :
    exampleGroup.indexesConsistent ∧
    (exampleGroup.getToConnections 20).1 = .ok [1] ∧
    ∃ l, (exampleGroup.getToConnections 20).1 = .ok l ∧
      (exampleGroup.getToConnections 20).2 = exampleGroup ∧
      l = (exampleGroup.toConnectionMap 20).getD [] ∧
      (exampleGroup.indexesConsistent →
        (∀ p, p ∈ l ↔
          (exampleGroup.connectionMap (exampleGroup.memory p).id = some p ∧
            (exampleGroup.memory p).toNeuronID = 20)) ∧
        ((∀ k p, exampleGroup.connectionMap k = some p →
          (exampleGroup.memory p).toNeuronID ≠ 20) → l = [])) :=
  ⟨exampleGroup_consistent, rfl, getToConnections_spec exampleGroup 20⟩

/-- Claim C13: `getFromConnections` leaves the group, and with it the answer of `contains`,
unchanged for every neuron ID; it returns the empty list when the from index has no entry for
the ID and, in a group with consistent indexes, whenever no connection of the group starts at
the ID. -/
theorem getFromConnections_unknown (g : ConnectionGroup) (neurID : Nat) :
    (g.getFromConnections neurID).2 = g ∧
      (g.getFromConnections neurID).2.contains neurID = g.contains neurID ∧
      (g.fromConnectionMap neurID = none → (g.getFromConnections neurID).1 = .ok []) ∧
      (g.indexesConsistent →
        (∀ k p, g.connectionMap k = some p → (g.memory p).fromNeuronID ≠ neurID) →
        (g.getFromConnections neurID).1 = .ok []) := by
  obtain ⟨hstate, hres⟩ := getFromConnections_frame g neurID
  refine ⟨hstate, by rw [hstate], fun hnone => by rw [hres, hnone]; rfl, fun hcons hnone => ?_⟩
  rw [hres]
  have hnil : (g.fromConnectionMap neurID).getD [] = [] := by
    apply List.eq_nil_iff_forall_not_mem.mpr
    intro p hp
    have := (hcons.1 neurID p).mp hp
    exact hnone _ p this.1 this.2
  rw [hnil]

/-- Witness for claim C13: neuron 99 is unknown to the example group. -/
theorem getFromConnections_unknown_witness :
    exampleGroup.contains 99 = false ∧
      (exampleGroup.getFromConnections 99).2.contains 99 = false ∧
      (exampleGroup.getFromConnections 99).1 = .ok [] :=
  ⟨rfl,
   ((getFromConnections_unknown exampleGroup 99).2.1).trans rfl,
   (getFromConnections_unknown exampleGroup 99).2.2.2 exampleGroup_consistent
     (fun k p h => by
       rcases exampleGroup_connectionMap k p h with ⟨_, hp⟩ | ⟨_, hp⟩ <;> subst hp <;> decide)⟩

/-- The two outcomes of `setWeight`. -/
theorem setWeight_cases (g : ConnectionGroup) (connectionID : Nat) (weight : ℚ) :
    (g.connectionMap connectionID = none →
      (∃ msg, (g.setWeight connectionID weight).1 = .error msg) ∧
        (g.setWeight connectionID weight).2 = g) ∧
    (∀ p, g.connectionMap connectionID = some p →
      (g.setWeight connectionID weight).1 = .ok () ∧
        (g.setWeight connectionID weight).2 =
          { g with memory := fun q =>
              if q = p then { g.memory q with weight := weight } else g.memory q }) := by
  unfold ConnectionGroup.setWeight
  constructor
  · intro hnone
    rw [(qhash_contains_eq_false _ _).mpr hnone]
    exact ⟨⟨_, rfl⟩, rfl⟩
  · intro p hp
    have hc : g.connectionMap.contains connectionID = true := by
      unfold QHash.contains; rw [hp]; rfl
    simp only [hc, Bool.not_true, Bool.false_eq_true, if_false,
      qhash_index_of_contains _ _ _ hc, hp, Option.getD_some, Connection.setWeight]
    exact ⟨trivial, trivial⟩

/-- The two outcomes of `setTempWeight`. -/
theorem setTempWeight_cases (g : ConnectionGroup) (connectionID : Nat) (tempWeight : ℚ) :
    (g.connectionMap connectionID = none →
      (∃ msg, (g.setTempWeight connectionID tempWeight).1 = .error msg) ∧
        (g.setTempWeight connectionID tempWeight).2 = g) ∧
    (∀ p, g.connectionMap connectionID = some p →
      (g.setTempWeight connectionID tempWeight).1 = .ok () ∧
        (g.setTempWeight connectionID tempWeight).2 =
          { g with memory := fun q =>
              if q = p then { g.memory q with tempWeight := tempWeight } else g.memory q }) := by
  unfold ConnectionGroup.setTempWeight
  constructor
  · intro hnone
    rw [(qhash_contains_eq_false _ _).mpr hnone]
    exact ⟨⟨_, rfl⟩, rfl⟩
  · intro p hp
    have hc : g.connectionMap.contains connectionID = true := by
      unfold QHash.contains; rw [hp]; rfl
    simp only [hc, Bool.not_true, Bool.false_eq_true, if_false,
      qhash_index_of_contains _ _ _ hc, hp, Option.getD_some, Connection.setTempWeight]
    exact ⟨trivial, trivial⟩


/-- Claim C14: `setWeight(connectionID, w)` throws if and only if the connection map holds no
connection under that ID, and then the group is unchanged; otherwise the connection stored
under the ID has the weight `w` and its other fields as before, every other connection object
is unchanged and so are the three hashes.  `setTempWeight` does the same for `tempWeight`. -/
theorem setWeight_spec (g : ConnectionGroup) (connectionID : Nat) (w : ℚ) :
    (((∃ msg, (g.setWeight connectionID w).1 = .error msg) ↔
        g.connectionMap connectionID = none) ∧
      (g.connectionMap connectionID = none → (g.setWeight connectionID w).2 = g) ∧
      (∀ p, g.connectionMap connectionID = some p →
        (g.setWeight connectionID w).1 = .ok () ∧
        (g.setWeight connectionID w).2.memory p = { g.memory p with weight := w } ∧
        (∀ q, q ≠ p → (g.setWeight connectionID w).2.memory q = g.memory q) ∧
        (g.setWeight connectionID w).2.connectionMap = g.connectionMap ∧
        (g.setWeight connectionID w).2.fromConnectionMap = g.fromConnectionMap ∧
        (g.setWeight connectionID w).2.toConnectionMap = g.toConnectionMap)) ∧
    (((∃ msg, (g.setTempWeight connectionID w).1 = .error msg) ↔
        g.connectionMap connectionID = none) ∧
      (g.connectionMap connectionID = none → (g.setTempWeight connectionID w).2 = g) ∧
      (∀ p, g.connectionMap connectionID = some p →
        (g.setTempWeight connectionID w).1 = .ok () ∧
        (g.setTempWeight connectionID w).2.memory p = { g.memory p with tempWeight := w } ∧
        (∀ q, q ≠ p → (g.setTempWeight connectionID w).2.memory q = g.memory q) ∧
        (g.setTempWeight connectionID w).2.connectionMap = g.connectionMap ∧
        (g.setTempWeight connectionID w).2.fromConnectionMap = g.fromConnectionMap ∧
        (g.setTempWeight connectionID w).2.toConnectionMap = g.toConnectionMap)) := by
  obtain ⟨hw1, hw2⟩ := setWeight_cases g connectionID w
  obtain ⟨ht1, ht2⟩ := setTempWeight_cases g connectionID w
  refine ⟨⟨⟨?_, fun h => (hw1 h).1⟩, fun h => (hw1 h).2, ?_⟩,
    ⟨⟨?_, fun h => (ht1 h).1⟩, fun h => (ht1 h).2, ?_⟩⟩
  · rintro ⟨msg, hmsg⟩
    cases hp : g.connectionMap connectionID with
    | none => rfl
    | some p => rw [(hw2 p hp).1] at hmsg; cases hmsg
  · intro p hp
    obtain ⟨hres, hstate⟩ := hw2 p hp
    rw [hstate]
    refine ⟨hres, by simp, fun q hq => by simp [hq], rfl, rfl, rfl⟩
  · rintro ⟨msg, hmsg⟩
    cases hp : g.connectionMap connectionID with
    | none => rfl
    | some p => rw [(ht2 p hp).1] at hmsg; cases hmsg
  · intro p hp
    obtain ⟨hres, hstate⟩ := ht2 p hp
    rw [hstate]
    refine ⟨hres, by simp, fun q hq => by simp [hq], rfl, rfl, rfl⟩

/-- Witness for claim C14: setting the weight of connection 7 of the example group, which is
the object at address 1, and failing to set that of the absent connection 99. -/
theorem setWeight_spec_witness :
    exampleGroup.connectionMap 7 = some 1 ∧
      (exampleGroup.setWeight 7 (3 / 4)).1 = .ok () ∧
      (exampleGroup.setWeight 7 (3 / 4)).2.memory 1 =
        { exampleGroup.memory 1 with weight := 3 / 4 } ∧
      exampleGroup.connectionMap 99 = none ∧
      (exampleGroup.setWeight 99 (3 / 4)).2 = exampleGroup :=
  ⟨rfl, ((setWeight_spec exampleGroup 7 (3 / 4)).1.2.2 1 rfl).1,
   ((setWeight_spec exampleGroup 7 (3 / 4)).1.2.2 1 rfl).2.1,
   rfl, (setWeight_spec exampleGroup 99 (3 / 4)).1.2.1 rfl⟩

/-- A successful or failing `setWeight` keeps the indexes consistent. -/
theorem setWeight_consistent (g : ConnectionGroup) (connectionID : Nat) (w : ℚ)
    (hcons : g.indexesConsistent) : (g.setWeight connectionID w).2.indexesConsistent := by
  cases hp : g.connectionMap connectionID with
  | none => rw [((setWeight_cases g connectionID w).1 hp).2]; exact hcons
  | some p =>
    rw [((setWeight_cases g connectionID w).2 p hp).2]
    have hfield : ∀ q, ((fun q => if q = p then { g.memory q with weight := w }
        else g.memory q) q).id = (g.memory q).id ∧
        ((fun q => if q = p then { g.memory q with weight := w }
        else g.memory q) q).fromNeuronID = (g.memory q).fromNeuronID ∧
        ((fun q => if q = p then { g.memory q with weight := w }
        else g.memory q) q).toNeuronID = (g.memory q).toNeuronID := by
      intro q
      by_cases hq : q = p <;> simp [hq]
    constructor
    · intro n q
      show q ∈ (g.fromConnectionMap n).getD [] ↔ _
      rw [(hfield q).1, (hfield q).2.1]
      exact hcons.1 n q
    · intro n q
      show q ∈ (g.toConnectionMap n).getD [] ↔ _
      rw [(hfield q).1, (hfield q).2.2]
      exact hcons.2 n q

/-! ## NeuronGroup: bounding box, nearest neuron, neuron at a location, layers -/

/-- A running minimum is a lower bound of its start value and of every folded value, and is one
of them. -/
theorem foldl_min_spec (key : Nat × Neuron → ℚ) (l : NeuronMap) (m : ℚ) :
    l.foldl (fun acc e => if key e < acc then key e else acc) m ≤ m ∧
      (∀ e ∈ l, l.foldl (fun acc e => if key e < acc then key e else acc) m ≤ key e) ∧
      (l.foldl (fun acc e => if key e < acc then key e else acc) m = m ∨
        ∃ e ∈ l, key e = l.foldl (fun acc e => if key e < acc then key e else acc) m) := by
  induction l generalizing m with
  | nil => simp
  | cons a rest ih =>
    simp only [List.foldl_cons, List.mem_cons, forall_eq_or_imp, exists_eq_or_imp]
    obtain ⟨h1, h2, h3⟩ := ih (if key a < m then key a else m)
    by_cases hlt : key a < m
    · simp only [hlt, if_true] at h1 h2 h3 ⊢
      refine ⟨le_trans h1 (le_of_lt hlt), ⟨h1, h2⟩, ?_⟩
      rcases h3 with h3 | h3
      · exact Or.inr (Or.inl h3.symm)
      · exact Or.inr (Or.inr h3)
    · simp only [hlt, if_false] at h1 h2 h3 ⊢
      refine ⟨h1, ⟨le_trans h1 (not_lt.mp hlt), h2⟩, ?_⟩
      rcases h3 with h3 | h3
      · exact Or.inl h3
      · exact Or.inr (Or.inr h3)

/-- A running maximum is an upper bound of its start value and of every folded value, and is
one of them. -/
theorem foldl_max_spec (key : Nat × Neuron → ℚ) (l : NeuronMap) (m : ℚ) :
    m ≤ l.foldl (fun acc e => if key e > acc then key e else acc) m ∧
      (∀ e ∈ l, key e ≤ l.foldl (fun acc e => if key e > acc then key e else acc) m) ∧
      (l.foldl (fun acc e => if key e > acc then key e else acc) m = m ∨
        ∃ e ∈ l, key e = l.foldl (fun acc e => if key e > acc then key e else acc) m) := by
  induction l generalizing m with
  | nil => simp
  | cons a rest ih =>
    simp only [List.foldl_cons, List.mem_cons, forall_eq_or_imp, exists_eq_or_imp]
    obtain ⟨h1, h2, h3⟩ := ih (if key a > m then key a else m)
    by_cases hlt : key a > m
    · simp only [hlt, if_true] at h1 h2 h3 ⊢
      refine ⟨le_trans (le_of_lt hlt) h1, ⟨h1, h2⟩, ?_⟩
      rcases h3 with h3 | h3
      · exact Or.inr (Or.inl h3.symm)
      · exact Or.inr (Or.inr h3)
    · simp only [hlt, if_false] at h1 h2 h3 ⊢
      refine ⟨h1, ⟨le_trans (not_lt.mp hlt) h1, h2⟩, ?_⟩
      rcases h3 with h3 | h3
      · exact Or.inl h3
      · exact Or.inr (Or.inr h3)

/-- The six sides of an expanded box, each as an update of the same side of the box before. -/
theorem expandBox_sides (b : Box) (n : Neuron) :
    (expandBox b false n).x1 = (if n.getXPos < b.x1 then n.getXPos else b.x1) ∧
    (expandBox b false n).y1 = (if n.getYPos < b.y1 then n.getYPos else b.y1) ∧
    (expandBox b false n).z1 = (if n.getZPos < b.z1 then n.getZPos else b.z1) ∧
    (expandBox b false n).x2 = (if n.getXPos > b.x2 then n.getXPos else b.x2) ∧
    (expandBox b false n).y2 = (if n.getYPos > b.y2 then n.getYPos else b.y2) ∧
    (expandBox b false n).z2 = (if n.getZPos > b.z2 then n.getZPos else b.z2) := by
  simp only [expandBox, Bool.false_eq_true, if_false, apply_ite Box.x1, apply_ite Box.y1,
    apply_ite Box.z1, apply_ite Box.x2, apply_ite Box.y2, apply_ite Box.z2, ite_self,
    and_self]

/-- The six sides of the box the loop computes from the second neuron on, as running minima and
maxima. -/
theorem boundingBoxLoop_sides (l : NeuronMap) (b : Box) :
    (boundingBoxLoop b false l).x1 =
        l.foldl (fun acc e => if e.2.getXPos < acc then e.2.getXPos else acc) b.x1 ∧
    (boundingBoxLoop b false l).y1 =
        l.foldl (fun acc e => if e.2.getYPos < acc then e.2.getYPos else acc) b.y1 ∧
    (boundingBoxLoop b false l).z1 =
        l.foldl (fun acc e => if e.2.getZPos < acc then e.2.getZPos else acc) b.z1 ∧
    (boundingBoxLoop b false l).x2 =
        l.foldl (fun acc e => if e.2.getXPos > acc then e.2.getXPos else acc) b.x2 ∧
    (boundingBoxLoop b false l).y2 =
        l.foldl (fun acc e => if e.2.getYPos > acc then e.2.getYPos else acc) b.y2 ∧
    (boundingBoxLoop b false l).z2 =
        l.foldl (fun acc e => if e.2.getZPos > acc then e.2.getZPos else acc) b.z2 := by
  induction l generalizing b with
  | nil => simp [boundingBoxLoop]
  | cons a rest ih =>
    obtain ⟨e1, e2, e3, e4, e5, e6⟩ := expandBox_sides b a.2
    obtain ⟨h1, h2, h3, h4, h5, h6⟩ := ih (expandBox b false a.2)
    simp only [boundingBoxLoop, List.foldl_cons]
    rw [h1, h2, h3, h4, h5, h6, e1, e2, e3, e4, e5, e6]
    exact ⟨rfl, rfl, rfl, rfl, rfl, rfl⟩


/-- A running minimum started at the first neuron is the minimum over the whole map. -/
theorem min_of_cons (key : Nat × Neuron → ℚ) (a : Nat × Neuron) (rest : NeuronMap) (v : ℚ)
    (hv : v = rest.foldl (fun acc e => if key e < acc then key e else acc) (key a)) :
    (∀ e ∈ a :: rest, v ≤ key e) ∧ ∃ e ∈ a :: rest, key e = v := by
  obtain ⟨h1, h2, h3⟩ := foldl_min_spec key rest (key a)
  rw [← hv] at h1 h2 h3
  constructor
  · intro e he
    rcases List.mem_cons.mp he with rfl | he
    · exact h1
    · exact h2 e he
  · rcases h3 with h3 | ⟨e, he, h3⟩
    · exact ⟨a, List.mem_cons_self _ _, h3.symm⟩
    · exact ⟨e, List.mem_cons_of_mem _ he, h3⟩

/-- A running maximum started at the first neuron is the maximum over the whole map. -/
theorem max_of_cons (key : Nat × Neuron → ℚ) (a : Nat × Neuron) (rest : NeuronMap) (v : ℚ)
    (hv : v = rest.foldl (fun acc e => if key e > acc then key e else acc) (key a)) :
    (∀ e ∈ a :: rest, key e ≤ v) ∧ ∃ e ∈ a :: rest, key e = v := by
  obtain ⟨h1, h2, h3⟩ := foldl_max_spec key rest (key a)
  rw [← hv] at h1 h2 h3
  constructor
  · intro e he
    rcases List.mem_cons.mp he with rfl | he
    · exact h1
    · exact h2 e he
  · rcases h3 with h3 | ⟨e, he, h3⟩
    · exact ⟨a, List.mem_cons_self _ _, h3.symm⟩
    · exact ⟨e, List.mem_cons_of_mem _ he, h3⟩

/-- Claim C15: for a group with at least one neuron that has changed since the last call,
`getBoundingBox` returns the smallest axis-aligned box enclosing all neurons: `x1`, `y1`, `z1`
are lower bounds of the neurons' x, y, z coordinates and each is attained by a neuron, `x2`,
`y2`, `z2` are upper bounds and each is attained by a neuron.  The box is stored in the group
and the changed flag is cleared. -/
theorem getBoundingBox_spec (g : NeuronGroup) (hne : g.neuronMap ≠ [])
    (hchanged : g.calculateBoundingBox = true) :
    ((∀ e ∈ g.neuronMap, g.getBoundingBox.1.x1 ≤ e.2.getXPos) ∧
      ∃ e ∈ g.neuronMap, e.2.getXPos = g.getBoundingBox.1.x1) ∧
    ((∀ e ∈ g.neuronMap, g.getBoundingBox.1.y1 ≤ e.2.getYPos) ∧
      ∃ e ∈ g.neuronMap, e.2.getYPos = g.getBoundingBox.1.y1) ∧
    ((∀ e ∈ g.neuronMap, g.getBoundingBox.1.z1 ≤ e.2.getZPos) ∧
      ∃ e ∈ g.neuronMap, e.2.getZPos = g.getBoundingBox.1.z1) ∧
    ((∀ e ∈ g.neuronMap, e.2.getXPos ≤ g.getBoundingBox.1.x2) ∧
      ∃ e ∈ g.neuronMap, e.2.getXPos = g.getBoundingBox.1.x2) ∧
    ((∀ e ∈ g.neuronMap, e.2.getYPos ≤ g.getBoundingBox.1.y2) ∧
      ∃ e ∈ g.neuronMap, e.2.getYPos = g.getBoundingBox.1.y2) ∧
    ((∀ e ∈ g.neuronMap, e.2.getZPos ≤ g.getBoundingBox.1.z2) ∧
      ∃ e ∈ g.neuronMap, e.2.getZPos = g.getBoundingBox.1.z2) ∧
    g.getBoundingBox.2 =
      { g with boundingBox := g.getBoundingBox.1, calculateBoundingBox := false } := by
  obtain ⟨a, rest, hl⟩ := List.exists_cons_of_ne_nil hne
  have hbox : g.getBoundingBox.1 = boundingBoxLoop (expandBox g.boundingBox true a.2) false rest := by
    unfold NeuronGroup.getBoundingBox
    simp only [hchanged, Bool.not_true, Bool.false_eq_true, if_false, hl, boundingBoxLoop]
  have hstate : g.getBoundingBox.2 =
      { g with boundingBox := g.getBoundingBox.1, calculateBoundingBox := false } := by
    unfold NeuronGroup.getBoundingBox
    simp only [hchanged, Bool.not_true, Bool.false_eq_true, if_false]
  obtain ⟨h1, h2, h3, h4, h5, h6⟩ :=
    boundingBoxLoop_sides rest (expandBox g.boundingBox true a.2)
  rw [← hbox] at h1 h2 h3 h4 h5 h6
  rw [hl]
  refine ⟨min_of_cons (fun e => e.2.getXPos) a rest _ h1,
    min_of_cons (fun e => e.2.getYPos) a rest _ h2,
    min_of_cons (fun e => e.2.getZPos) a rest _ h3,
    max_of_cons (fun e => e.2.getXPos) a rest _ h4,
    max_of_cons (fun e => e.2.getYPos) a rest _ h5,
    max_of_cons (fun e => e.2.getZPos) a rest _ h6, ?_⟩
  rw [← hl]
  exact hstate

set_option maxRecDepth 8192 in
/-- The bounding box of the example group: from (1, 0, -1) to (4, 5, 3). -/
theorem getBoundingBox_example :
    exampleNeuronGroup.getBoundingBox.1 =
      { x1 := 1, y1 := 0, z1 := -1, x2 := 4, y2 := 5, z2 := 3 } := by
  decide

/-- Witness for claim C15: the example group of three neurons. -/
theorem getBoundingBox_spec_witness :
    exampleNeuronGroup.neuronMap ≠ [] ∧ exampleNeuronGroup.calculateBoundingBox = true ∧
    ((∀ e ∈ exampleNeuronGroup.neuronMap,
        exampleNeuronGroup.getBoundingBox.1.x1 ≤ e.2.getXPos) ∧
      ∃ e ∈ exampleNeuronGroup.neuronMap,
        e.2.getXPos = exampleNeuronGroup.getBoundingBox.1.x1) :=
  ⟨by decide, rfl, (getBoundingBox_spec exampleNeuronGroup (by decide) rfl).1⟩

/-- The distance is never negative. -/
theorem distance_nonneg (p q : Point3D) : 0 ≤ p.distance q := by
  unfold Point3D.distance
  positivity

/-- When `firstTime` starts as false, the loop never assigns `closestNeuron`: no distance is
below the initial `minDist` of 0. -/
theorem nearestLoop_unassigned (point : Point3D) (l : NeuronMap) :
    nearestLoop point { minDist := 0, firstTime := false, closestNeuron := none } l =
      { minDist := 0, firstTime := false, closestNeuron := none } := by
  induction l with
  | nil => rfl
  | cons a rest ih =>
    have h : ¬ a.2.location.distance point < 0 := not_lt.mpr (distance_nonneg _ _)
    simp only [nearestLoop, Bool.false_eq_true, if_false, h]
    exact ih

/-- With `firstTime` false from the start, `getNearestNeuron` returns the unassigned pointer for
every group and point. -/
theorem getNearestNeuron_unassigned (g : NeuronGroup) (point : Point3D) :
    g.getNearestNeuron false point = none := by
  unfold NeuronGroup.getNearestNeuron
  rw [nearestLoop_unassigned]

/-- Claim C16 at the example group and the point (1, 4, 0), with the uninitialised `firstTime`
starting as false: the group is not empty, yet no neuron of it is returned. -/
theorem getNearestNeuron_unassigned_example :
    exampleNeuronGroup.neuronMap ≠ [] ∧
      exampleNeuronGroup.getNearestNeuron false { xPos := 1, yPos := 4, zPos := 0 } = none :=
  ⟨by decide, getNearestNeuron_unassigned _ _⟩

/-- The loop from the second neuron on: either the neuron held so far stays and no later
neuron is nearer, or the first of the nearest later neurons is taken. -/
theorem nearestLoop_from (point : Point3D) (l : NeuronMap) :
    ∀ (m : ℚ) (c : Neuron),
      ((nearestLoop point { minDist := m, firstTime := false, closestNeuron := some c }
            l).closestNeuron = some c ∧
          ∀ e ∈ l, m ≤ e.2.location.distance point) ∨
        ∃ pre e post, l = pre ++ e :: post ∧
          (nearestLoop point { minDist := m, firstTime := false, closestNeuron := some c }
            l).closestNeuron = some e.2 ∧
          e.2.location.distance point < m ∧
          (∀ x ∈ pre, e.2.location.distance point < x.2.location.distance point) ∧
          ∀ x ∈ post, e.2.location.distance point ≤ x.2.location.distance point := by
  induction l with
  | nil =>
    intro m c
    exact Or.inl ⟨rfl, fun e he => absurd he (List.not_mem_nil e)⟩
  | cons a rest ih =>
    intro m c
    by_cases hlt : a.2.location.distance point < m
    · simp only [nearestLoop, Bool.false_eq_true, if_false, hlt, if_true]
      rcases ih (a.2.location.distance point) a.2 with ⟨hc, hall⟩ | ⟨pre, e, post, hl, hc, hd, hpre, hpost⟩
      · exact Or.inr ⟨[], a, rest, rfl, hc, hlt, fun x hx => absurd hx (List.not_mem_nil x), hall⟩
      · refine Or.inr ⟨a :: pre, e, post, by rw [hl]; rfl, hc, lt_trans hd hlt, ?_, hpost⟩
        intro x hx
        rcases List.mem_cons.mp hx with rfl | hx
        · exact hd
        · exact hpre x hx
    · simp only [nearestLoop, Bool.false_eq_true, if_false, hlt]
      rcases ih m c with ⟨hc, hall⟩ | ⟨pre, e, post, hl, hc, hd, hpre, hpost⟩
      · refine Or.inl ⟨hc, ?_⟩
        intro x hx
        rcases List.mem_cons.mp hx with rfl | hx
        · exact not_lt.mp hlt
        · exact hall x hx
      · refine Or.inr ⟨a :: pre, e, post, by rw [hl]; rfl, hc, hd, ?_, hpost⟩
        intro x hx
        rcases List.mem_cons.mp hx with rfl | hx
        · exact lt_of_lt_of_le hd (not_lt.mp hlt)
        · exact hpre x hx

/-- Had `firstTime` been initialised to true, as the same flag is in `getBoundingBox`, the
function would return, for every non-empty group, a neuron of the group that is at least as
near to the point as every other one, and the first such neuron in iteration order. -/
theorem getNearestNeuron_of_initialised (g : NeuronGroup) (point : Point3D)
    (hne : g.neuronMap ≠ []) :
    ∃ pre e post, g.neuronMap = pre ++ e :: post ∧
      g.getNearestNeuron true point = some e.2 ∧
      (∀ x ∈ pre, e.2.location.distance point < x.2.location.distance point) ∧
      ∀ x ∈ post, e.2.location.distance point ≤ x.2.location.distance point := by
  obtain ⟨a, rest, hl⟩ := List.exists_cons_of_ne_nil hne
  unfold NeuronGroup.getNearestNeuron
  rw [hl]
  simp only [nearestLoop, if_true]
  rcases nearestLoop_from point rest (a.2.location.distance point) a.2 with
    ⟨hc, hall⟩ | ⟨pre, e, post, hrest, hc, hd, hpre, hpost⟩
  · exact ⟨[], a, rest, rfl, hc, fun x hx => absurd hx (List.not_mem_nil x), hall⟩
  · refine ⟨a :: pre, e, post, by rw [hrest]; rfl, hc, ?_, hpost⟩
    intro x hx
    rcases List.mem_cons.mp hx with rfl | hx
    · exact hd
    · exact hpre x hx

/-- The loop of `getNeuronAtLocation` throws exactly when no neuron is at the point, and a
returned ID is that of a neuron at the point. -/
theorem neuronAtLocationLoop_spec (point : Point3D) (l : NeuronMap) :
    ((∃ err, neuronAtLocationLoop point l = .error err) ↔
        ∀ e ∈ l, e.2.location ≠ point) ∧
      (∀ id, neuronAtLocationLoop point l = .ok id →
        ∃ n, (id, n) ∈ l ∧ n.location = point) ∧
      ((∃ e ∈ l, e.2.location = point) → ∃ id, neuronAtLocationLoop point l = .ok id) := by
  induction l with
  | nil =>
    refine ⟨⟨fun _ e he => absurd he (List.not_mem_nil e), fun _ => ⟨_, rfl⟩⟩, ?_, ?_⟩
    · intro id h
      cases h
    · rintro ⟨e, he, _⟩
      exact absurd he (List.not_mem_nil e)
  | cons a rest ih =>
    obtain ⟨ih1, ih2, ih3⟩ := ih
    by_cases ha : a.2.location = point
    · have hres : neuronAtLocationLoop point (a :: rest) = .ok a.1 := by
        simp [neuronAtLocationLoop, ha]
      rw [hres]
      refine ⟨⟨?_, ?_⟩, ?_, fun _ => ⟨_, rfl⟩⟩
      · rintro ⟨err, herr⟩
        cases herr
      · intro hall
        exact absurd ha (hall a (List.mem_cons_self _ _))
      · intro id hid
        injection hid with hid
        subst hid
        exact ⟨a.2, List.mem_cons_self _ _, ha⟩
    · have hres : neuronAtLocationLoop point (a :: rest) = neuronAtLocationLoop point rest := by
        simp [neuronAtLocationLoop, ha]
      rw [hres]
      refine ⟨⟨?_, ?_⟩, ?_, ?_⟩
      · intro herr e he
        rcases List.mem_cons.mp he with rfl | he
        · exact ha
        · exact ih1.mp herr e he
      · intro hall
        exact ih1.mpr (fun e he => hall e (List.mem_cons_of_mem _ he))
      · intro id hid
        obtain ⟨n, hn, hloc⟩ := ih2 id hid
        exact ⟨n, List.mem_cons_of_mem _ hn, hloc⟩
      · rintro ⟨e, he, hloc⟩
        rcases List.mem_cons.mp he with rfl | he
        · exact absurd hloc ha
        · exact ih3 ⟨e, he, hloc⟩

/-- Claim C18: `getNeuronAtLocation` throws if and only if no neuron of the group is located at
the point; when a neuron is there it returns, and a returned ID is that of a neuron of the
group whose location equals the point. -/
theorem getNeuronAtLocation_spec (g : NeuronGroup) (point : Point3D) :
    ((∃ err, g.getNeuronAtLocation point = .error err) ↔
        ∀ e ∈ g.neuronMap, e.2.location ≠ point) ∧
      (∀ id, g.getNeuronAtLocation point = .ok id →
        ∃ n, (id, n) ∈ g.neuronMap ∧ n.location = point) ∧
      ((∃ e ∈ g.neuronMap, e.2.location = point) →
        ∃ id, g.getNeuronAtLocation point = .ok id) :=
  neuronAtLocationLoop_spec point g.neuronMap

/-- Witness for claim C18: the neuron 6 of the example group is at (4, 0, 3). -/
theorem getNeuronAtLocation_spec_witness :
    exampleNeuronGroup.getNeuronAtLocation { xPos := 4, yPos := 0, zPos := 3 } = .ok 6 ∧
      ∃ n, (6, n) ∈ exampleNeuronGroup.neuronMap ∧
        n.location = { xPos := 4, yPos := 0, zPos := 3 } :=
  ⟨rfl, (getNeuronAtLocation_spec exampleNeuronGroup { xPos := 4, yPos := 0, zPos := 3 }).2.1
    6 rfl⟩

/-- The key test of the neuron map, as a proposition. -/
theorem neuronMap_contains_eq_false (m : NeuronMap) (key : Nat) :
    m.contains key = false ↔ key ∉ m.map Prod.fst := by
  unfold NeuronMap.contains
  simp only [List.any_eq_false, beq_iff_eq, List.mem_map, not_exists, not_and]

/-- A call of `addNeuron` whose temporary ID is not in the group: the neuron is stored under
that ID after the neurons already there. -/
theorem addNeuron_fresh (g : NeuronGroup) (x y z : ℚ)
    (h : (g.neuronIDCounter + 1) % 2 ^ 32 ∉ g.neuronMap.map Prod.fst) :
    ∃ g1, g.addNeuron x y z = (.ok (neuronAt x y z), g1) ∧
      g1.neuronMap = g.neuronMap ++ [((g.neuronIDCounter + 1) % 2 ^ 32, neuronAt x y z)] ∧
      g1.neuronIDCounter = (g.neuronIDCounter + 1) % 2 ^ 32 := by
  have hc := (neuronMap_contains_eq_false g.neuronMap _).mpr h
  unfold NeuronGroup.addNeuron NeuronGroup.getTemporaryID
  simp only [hc, Bool.false_eq_true, if_false, NeuronMap.assign]
  exact ⟨_, rfl, rfl, rfl⟩

/-- An inner loop of `addLayer` whose temporary IDs are pairwise different and not in the
group: every neuron of the row is stored, in order, after the neurons already there. -/
theorem addLayerRow_fresh (x zPos : Int) (ys : List Int) :
    ∀ g : NeuronGroup,
      (∀ id ∈ temporaryIDs g.neuronIDCounter ys.length, id ∉ g.neuronMap.map Prod.fst) →
      (temporaryIDs g.neuronIDCounter ys.length).Nodup →
      ∃ g1, NeuronGroup.addLayerRow x zPos ys g = (.ok (), g1) ∧
        g1.neuronMap = g.neuronMap ++
          (temporaryIDs g.neuronIDCounter ys.length).zip
            (ys.map (fun y => neuronAt (intToFloat x) (intToFloat y) (intToFloat zPos))) ∧
        g1.neuronIDCounter = advanceCounter g.neuronIDCounter ys.length := by
  induction ys with
  | nil =>
    intro g _ _
    exact ⟨g, rfl, by simp [temporaryIDs], rfl⟩
  | cons y ys ih =>
    intro g hfresh hnd
    simp only [List.length_cons, temporaryIDs, List.mem_cons, forall_eq_or_imp,
      List.nodup_cons] at hfresh hnd
    obtain ⟨g1, hadd, hmap1, hcnt1⟩ :=
      addNeuron_fresh g (intToFloat x) (intToFloat y) (intToFloat zPos) hfresh.1
    obtain ⟨g2, hrow, hmap2, hcnt2⟩ := ih g1
      (by
        rw [hcnt1, hmap1]
        intro id hid
        simp only [List.map_append, List.map_cons, List.map_nil, List.mem_append,
          List.mem_singleton, not_or]
        exact ⟨hfresh.2 id hid, fun heq => hnd.1 (heq ▸ hid)⟩)
      (by rw [hcnt1]; exact hnd.2)
    refine ⟨g2, ?_, ?_, ?_⟩
    · simp only [NeuronGroup.addLayerRow, hadd, hrow]
    · rw [hmap2, hmap1, hcnt1]
      simp [temporaryIDs]
    · rw [hcnt2, hcnt1]
      rfl


/-- The number of generated IDs. -/
theorem length_temporaryIDs (k : Nat) : ∀ c, (temporaryIDs c k).length = k := by
  induction k with
  | zero => intro c; rfl
  | succ k ih => intro c; simp [temporaryIDs, ih]

/-- The IDs of two runs of calls, one after the other. -/
theorem temporaryIDs_add (k1 k2 : Nat) :
    ∀ c, temporaryIDs c (k1 + k2) =
      temporaryIDs c k1 ++ temporaryIDs (advanceCounter c k1) k2 := by
  induction k1 with
  | zero => intro c; simp [temporaryIDs, advanceCounter]
  | succ k ih =>
    intro c
    rw [Nat.succ_add]
    simp only [temporaryIDs, advanceCounter, List.cons_append, ih]

/-- The counter after two runs of calls, one after the other. -/
theorem advanceCounter_add (k1 k2 : Nat) :
    ∀ c, advanceCounter c (k1 + k2) = advanceCounter (advanceCounter c k1) k2 := by
  induction k1 with
  | zero => intro c; simp [advanceCounter]
  | succ k ih =>
    intro c
    rw [Nat.succ_add]
    simp only [advanceCounter, ih]

/-- The generated IDs in closed form: the counter plus 1, 2, ... modulo `2^32`. -/
theorem temporaryIDs_eq (k : Nat) :
    ∀ c, temporaryIDs c k = (List.range k).map (fun i => (c + i + 1) % 2 ^ 32) := by
  induction k with
  | zero => intro c; rfl
  | succ k ih =>
    intro c
    rw [temporaryIDs, ih, List.range_succ_eq_map, List.map_cons, List.map_map]
    congr 1
    apply List.map_congr_left
    intro i _
    simp only [Function.comp_apply]
    omega

/-- At most `2^32` generated IDs are pairwise different. -/
theorem temporaryIDs_nodup (c k : Nat) (hk : k ≤ 2 ^ 32) : (temporaryIDs c k).Nodup := by
  rw [temporaryIDs_eq]
  apply List.Nodup.map_on
  · intro i hi j hj hij
    rw [List.mem_range] at hi hj
    omega
  · exact List.nodup_range k

/-- A sum within the `int` range is not changed by the wrap-around. -/
theorem wrapInt32_of_inInt32 (i : Int) (h : inInt32 i) : wrapInt32 i = i := by
  unfold inInt32 at h
  unfold wrapInt32
  omega

/-- The values of an `int` loop variable whose bound does not overflow. -/
theorem mem_intRange (start count x : Int) (h : inInt32 (start + count)) :
    x ∈ intRange start count ↔ start ≤ x ∧ x < start + count := by
  unfold intRange
  rw [wrapInt32_of_inInt32 _ h]
  simp only [List.mem_map, List.mem_range]
  constructor
  · rintro ⟨i, hi, rfl⟩
    omega
  · rintro ⟨h1, h2⟩
    exact ⟨(x - start).toNat, by omega, by omega⟩

/-- The number of iterations of an `int` loop whose bound does not overflow. -/
theorem length_intRange (start count : Int) (h : inInt32 (start + count)) :
    (intRange start count).length = count.toNat := by
  unfold intRange
  rw [wrapInt32_of_inInt32 _ h, List.length_map, List.length_range]
  congr 1
  omega

/-- Integers of magnitude up to `2^24` are converted to `float` exactly. -/
theorem intToFloat_exact (i : Int) (h1 : -16777216 ≤ i) (h2 : i ≤ 16777216) :
    intToFloat i = (i : ℚ) := by
  unfold intToFloat
  rw [if_pos (by omega)]

/-- The neurons of a layer stand at the `float` conversions of the grid positions, when the
loop bounds do not overflow. -/
theorem mem_layerNeurons (width height xPos yPos zPos : Int)
    (hx : inInt32 (xPos + width)) (hy : inInt32 (yPos + height)) (n : Neuron) :
    n ∈ layerNeurons width height xPos yPos zPos ↔
      ∃ x y, xPos ≤ x ∧ x < xPos + width ∧ yPos ≤ y ∧ y < yPos + height ∧
        n = neuronAt (intToFloat x) (intToFloat y) (intToFloat zPos) := by
  unfold layerNeurons
  simp only [List.mem_flatMap, List.mem_map, mem_intRange _ _ _ hx, mem_intRange _ _ _ hy]
  constructor
  · rintro ⟨x, ⟨hx1, hx2⟩, y, ⟨hy1, hy2⟩, rfl⟩
    exact ⟨x, y, hx1, hx2, hy1, hy2, rfl⟩
  · rintro ⟨x, y, hx1, hx2, hy1, hy2, rfl⟩
    exact ⟨x, ⟨hx1, hx2⟩, y, ⟨hy1, hy2⟩, rfl⟩

/-- The neurons of a layer stand at the grid positions themselves, when every coordinate has a
magnitude of at most `2^24`. -/
theorem mem_layerNeurons_exact (width height xPos yPos zPos : Int)
    (hx1 : -16777216 ≤ xPos) (hx2 : xPos + width ≤ 16777217)
    (hy1 : -16777216 ≤ yPos) (hy2 : yPos + height ≤ 16777217)
    (hz1 : -16777216 ≤ zPos) (hz2 : zPos ≤ 16777216) (hw : 0 ≤ width) (hh : 0 ≤ height)
    (n : Neuron) :
    n ∈ layerNeurons width height xPos yPos zPos ↔
      ∃ x y : Int, xPos ≤ x ∧ x < xPos + width ∧ yPos ≤ y ∧ y < yPos + height ∧
        n = neuronAt (x : ℚ) (y : ℚ) (zPos : ℚ) := by
  rw [mem_layerNeurons width height xPos yPos zPos
    (by unfold inInt32; omega) (by unfold inInt32; omega)]
  constructor
  · rintro ⟨x, y, h1, h2, h3, h4, rfl⟩
    refine ⟨x, y, h1, h2, h3, h4, ?_⟩
    rw [intToFloat_exact x (by omega) (by omega), intToFloat_exact y (by omega) (by omega),
      intToFloat_exact zPos hz1 hz2]
  · rintro ⟨x, y, h1, h2, h3, h4, rfl⟩
    refine ⟨x, y, h1, h2, h3, h4, ?_⟩
    rw [intToFloat_exact x (by omega) (by omega), intToFloat_exact y (by omega) (by omega),
      intToFloat_exact zPos hz1 hz2]

/-- The number of neurons in the rows of a layer. -/
theorem length_rows (f : Int → Int → Neuron) (xs ys : List Int) :
    (xs.flatMap (fun x => ys.map (fun y => f x y))).length = xs.length * ys.length := by
  induction xs with
  | nil => simp
  | cons x xs ih =>
    simp only [List.flatMap_cons, List.length_append, List.length_map, ih, List.length_cons]
    rw [Nat.succ_mul, Nat.add_comm]

/-- The outer loop of `addLayer` when the temporary IDs are pairwise different and not in the
group: every neuron of the layer is stored, in loop order, after the neurons already there. -/
theorem addLayerRows_fresh (zPos : Int) (ys xs : List Int) :
    ∀ g : NeuronGroup,
      (∀ id ∈ temporaryIDs g.neuronIDCounter (xs.length * ys.length),
        id ∉ g.neuronMap.map Prod.fst) →
      (temporaryIDs g.neuronIDCounter (xs.length * ys.length)).Nodup →
      ∃ g1, NeuronGroup.addLayerRows zPos ys xs g = (.ok (), g1) ∧
        g1.neuronMap = g.neuronMap ++
          (temporaryIDs g.neuronIDCounter (xs.length * ys.length)).zip
            (xs.flatMap (fun x =>
              ys.map (fun y => neuronAt (intToFloat x) (intToFloat y) (intToFloat zPos)))) ∧
        g1.neuronIDCounter = advanceCounter g.neuronIDCounter (xs.length * ys.length) := by
  induction xs with
  | nil =>
    intro g _ _
    exact ⟨g, rfl, by simp [temporaryIDs], by simp [advanceCounter]⟩
  | cons x xs ih =>
    intro g hfresh hnd
    have hlen : (x :: xs).length * ys.length = ys.length + xs.length * ys.length := by
      rw [List.length_cons, Nat.succ_mul, Nat.add_comm]
    rw [hlen, temporaryIDs_add] at hfresh hnd
    rw [hlen, temporaryIDs_add, advanceCounter_add]
    obtain ⟨hnd1, hnd2, hdisj⟩ := List.nodup_append.mp hnd
    obtain ⟨g1, hrow, hmap1, hcnt1⟩ := addLayerRow_fresh x zPos ys g
      (fun id hid => hfresh id (List.mem_append_left _ hid)) hnd1
    have hkeys : g1.neuronMap.map Prod.fst =
        g.neuronMap.map Prod.fst ++ temporaryIDs g.neuronIDCounter ys.length := by
      rw [hmap1, List.map_append, List.map_fst_zip]
      rw [length_temporaryIDs, List.length_map]
    obtain ⟨g2, hrows, hmap2, hcnt2⟩ := ih g1
      (by
        rw [hcnt1, hkeys]
        intro id hid
        simp only [List.mem_append, not_or]
        exact ⟨hfresh id (List.mem_append_right _ hid), fun h1 => hdisj h1 hid⟩)
      (by rw [hcnt1]; exact hnd2)
    refine ⟨g2, ?_, ?_, ?_⟩
    · simp only [NeuronGroup.addLayerRows, hrow, hrows]
    · rw [hmap2, hmap1, hcnt1, List.flatMap_cons, List.append_assoc]
      congr 1
      rw [List.zip_append]
      rw [length_temporaryIDs, List.length_map]
    · rw [hcnt2, hcnt1]


/-- Counterexample to claim C17: `addLayer(2, 1, 16777216, 0, 0)` on the example group meets
the conditions of the claim (width and height not negative, the two generated IDs 101 and 102
not in the group) and returns, yet no neuron of the group stands at the grid position
(16777217, 0, 0): as a `float` that x coordinate is 16777216, so both new neurons stand at
(16777216, 0, 0). -/
theorem addLayer_counterexample :
    (∀ id ∈ temporaryIDs exampleNeuronGroup.neuronIDCounter ((2 : Int) * 1).toNat,
      id ∉ exampleNeuronGroup.neuronMap.map Prod.fst) ∧
    (exampleNeuronGroup.addLayer 2 1 16777216 0 0).1 = .ok () ∧
    (exampleNeuronGroup.addLayer 2 1 16777216 0 0).2.neuronMap =
      exampleNeuronGroup.neuronMap ++
        [(101, neuronAt 16777216 0 0), (102, neuronAt 16777216 0 0)] ∧
    ∀ e ∈ (exampleNeuronGroup.addLayer 2 1 16777216 0 0).2.neuronMap,
      e.2.location ≠ { xPos := 16777217, yPos := 0, zPos := 0 } :=
  ⟨by decide, rfl, by decide, by decide⟩

/-- Where the loop bound `xPos + width` overflows, here for `addLayer(1, 1, 2147483647, 0, 0)`,
the modelled run adds no neuron although `width * height` is 1. -/
theorem addLayer_overflow_example :
    (exampleNeuronGroup.addLayer 1 1 2147483647 0 0).2.size = exampleNeuronGroup.size := by
  decide

/-- Claim C17, amended: for 32-bit parameters with `width ≥ 0` and `height ≥ 0` whose sums
`xPos + width` and `yPos + height` do not overflow, when the temporary IDs the call generates
are pairwise different and none of them is in the group, `addLayer` returns without throwing,
the size of the group grows by exactly `width * height`, and the neuron map consists of the
entries it had before, each still in it, and one new neuron for each grid position
`(x, y, zPos)` with `xPos ≤ x < xPos + width` and `yPos ≤ y < yPos + height`, stored under the
generated IDs and located at the `float` conversion of the grid position; that is the grid
position itself when every coordinate has a magnitude of at most `2^24`. -/
theorem addLayer_spec (g : NeuronGroup) (width height xPos yPos zPos : Int)
    (hw : 0 ≤ width) (hh : 0 ≤ height)
    (hint : inInt32 width ∧ inInt32 height ∧ inInt32 xPos ∧ inInt32 yPos ∧ inInt32 zPos)
    (hsum : inInt32 (xPos + width) ∧ inInt32 (yPos + height))
    (hfresh : ∀ id ∈ temporaryIDs g.neuronIDCounter (width * height).toNat,
      id ∉ g.neuronMap.map Prod.fst)
    (hdistinct : (temporaryIDs g.neuronIDCounter (width * height).toNat).Nodup) :
    ∃ g1, g.addLayer width height xPos yPos zPos = (.ok (), g1) ∧
      (g1.size : Int) = g.size + width * height ∧
      g1.neuronMap.Perm (g.neuronMap ++
        (temporaryIDs g.neuronIDCounter (width * height).toNat).zip
          (layerNeurons width height xPos yPos zPos)) ∧
      (layerNeurons width height xPos yPos zPos).length = (width * height).toNat ∧
      (∀ n, n ∈ layerNeurons width height xPos yPos zPos ↔
        ∃ x y, xPos ≤ x ∧ x < xPos + width ∧ yPos ≤ y ∧ y < yPos + height ∧
          n = neuronAt (intToFloat x) (intToFloat y) (intToFloat zPos)) ∧
      (-16777216 ≤ xPos → xPos + width ≤ 16777217 →
        -16777216 ≤ yPos → yPos + height ≤ 16777217 →
        -16777216 ≤ zPos → zPos ≤ 16777216 →
        ∀ n, n ∈ layerNeurons width height xPos yPos zPos ↔
          ∃ x y : Int, xPos ≤ x ∧ x < xPos + width ∧ yPos ≤ y ∧ y < yPos + height ∧
            n = neuronAt (x : ℚ) (y : ℚ) (zPos : ℚ)) ∧
      ∀ e ∈ g.neuronMap, e ∈ g1.neuronMap := by
  have hcount : (intRange xPos width).length * (intRange yPos height).length =
      (width * height).toNat := by
    rw [length_intRange _ _ hsum.1, length_intRange _ _ hsum.2]
    obtain ⟨w, rfl⟩ := Int.eq_ofNat_of_zero_le hw
    obtain ⟨h, rfl⟩ := Int.eq_ofNat_of_zero_le hh
    rw [← Int.natCast_mul]
    simp only [Int.toNat_ofNat]
  have hlayer : (layerNeurons width height xPos yPos zPos).length =
      (width * height).toNat := by
    unfold layerNeurons
    rw [length_rows (fun x y => neuronAt (intToFloat x) (intToFloat y) (intToFloat zPos)),
      hcount]
  obtain ⟨g1, hrows, hmap, _⟩ := addLayerRows_fresh zPos (intRange yPos height)
    (intRange xPos width) g (by rw [hcount]; exact hfresh) (by rw [hcount]; exact hdistinct)
  rw [hcount] at hmap
  have hmap2 : g1.neuronGroupChanged.neuronMap = g.neuronMap ++
      (temporaryIDs g.neuronIDCounter (width * height).toNat).zip
        (layerNeurons width height xPos yPos zPos) := hmap
  refine ⟨g1.neuronGroupChanged, ?_, ?_, ?_, hlayer,
    mem_layerNeurons _ _ _ _ _ hsum.1 hsum.2,
    fun hx1 hx2 hy1 hy2 hz1 hz2 =>
      mem_layerNeurons_exact _ _ _ _ _ hx1 hx2 hy1 hy2 hz1 hz2 hw hh, ?_⟩
  · simp only [NeuronGroup.addLayer, hrows]
  · unfold NeuronGroup.size
    rw [hmap2, List.length_append, List.length_zip, length_temporaryIDs, hlayer, Nat.min_self]
    push_cast
    rw [Int.toNat_of_nonneg (Int.mul_nonneg hw hh)]
  · rw [hmap2]
  · intro e he
    rw [hmap2]
    exact List.mem_append_left _ he

/-- Witness for claim C17 as amended: a layer of width 2 and height 3 at (0, 0, 9) added to the
example group, whose counter stands at 100. -/
theorem addLayer_spec_witness :
    (inInt32 2 ∧ inInt32 3 ∧ inInt32 0 ∧ inInt32 0 ∧ inInt32 9) ∧
    (inInt32 (0 + 2) ∧ inInt32 (0 + 3)) ∧
    (∀ id ∈ temporaryIDs exampleNeuronGroup.neuronIDCounter ((2 : Int) * 3).toNat,
      id ∉ exampleNeuronGroup.neuronMap.map Prod.fst) ∧
    ∃ g1, exampleNeuronGroup.addLayer 2 3 0 0 9 = (.ok (), g1) ∧
      (g1.size : Int) = exampleNeuronGroup.size + 2 * 3 ∧
      g1.neuronMap.Perm (exampleNeuronGroup.neuronMap ++
        (temporaryIDs exampleNeuronGroup.neuronIDCounter ((2 : Int) * 3).toNat).zip
          (layerNeurons 2 3 0 0 9)) ∧
      (layerNeurons 2 3 0 0 9).length = ((2 : Int) * 3).toNat ∧
      (∀ n, n ∈ layerNeurons 2 3 0 0 9 ↔
        ∃ x y, (0 : Int) ≤ x ∧ x < 0 + 2 ∧ (0 : Int) ≤ y ∧ y < 0 + 3 ∧
          n = neuronAt (intToFloat x) (intToFloat y) (intToFloat 9)) ∧
      ((-16777216 : Int) ≤ 0 → (0 : Int) + 2 ≤ 16777217 →
        (-16777216 : Int) ≤ 0 → (0 : Int) + 3 ≤ 16777217 →
        (-16777216 : Int) ≤ 9 → (9 : Int) ≤ 16777216 →
        ∀ n, n ∈ layerNeurons 2 3 0 0 9 ↔
          ∃ x y : Int, (0 : Int) ≤ x ∧ x < 0 + 2 ∧ (0 : Int) ≤ y ∧ y < 0 + 3 ∧
            n = neuronAt (x : ℚ) (y : ℚ) ((9 : Int) : ℚ)) ∧
      ∀ e ∈ exampleNeuronGroup.neuronMap, e ∈ g1.neuronMap :=
  ⟨by decide, by decide, by decide,
   addLayer_spec exampleNeuronGroup 2 3 0 0 9 (by decide) (by decide) (by decide) (by decide)
     (by decide) (by decide)⟩

/-! ## ArchiveDao: firing neuron IDs -/

/-- A split always has at least one part. -/
theorem split_ne_nil (sep : Char) (s : QString) : QString.split sep s ≠ [] := by
  cases s with
  | nil => simp [QString.split]
  | cons c cs =>
    unfold QString.split
    split
    · simp
    · split <;> simp

/-- Joining the parts of a split gives the string back. -/
theorem join_split (sep : Char) (s : QString) :
    QString.join sep (QString.split sep s) = s := by
  induction s with
  | nil => rfl
  | cons c cs ih =>
    unfold QString.split
    by_cases hc : c = sep
    · rw [if_pos hc]
      cases hsplit : QString.split sep cs with
      | nil => exact absurd hsplit (split_ne_nil sep cs)
      | cons part parts =>
        rw [hsplit] at ih
        simp only [QString.join, List.nil_append, ih, hc]
    · rw [if_neg hc]
      cases hsplit : QString.split sep cs with
      | nil => exact absurd hsplit (split_ne_nil sep cs)
      | cons part parts =>
        rw [hsplit] at ih
        cases parts with
        | nil =>
          simp only [QString.join] at ih ⊢
          rw [ih]
        | cons q qs =>
          simp only [QString.join, List.cons_append] at ih ⊢
          rw [ih]

/-- No part of a split contains the separator. -/
theorem split_no_sep (sep : Char) (s : QString) :
    ∀ part ∈ QString.split sep s, sep ∉ part := by
  induction s with
  | nil => simp [QString.split]
  | cons c cs ih =>
    unfold QString.split
    by_cases hc : c = sep
    · rw [if_pos hc]
      intro part hpart
      rcases List.mem_cons.mp hpart with rfl | hpart
      · simp
      · exact ih part hpart
    · rw [if_neg hc]
      cases hsplit : QString.split sep cs with
      | nil => exact absurd hsplit (split_ne_nil sep cs)
      | cons p ps =>
        rw [hsplit] at ih
        intro part hpart
        rcases List.mem_cons.mp hpart with rfl | hpart
        · intro hmem
          rcases List.mem_cons.mp hmem with h | h
          · exact hc h.symm
          · exact ih p (List.mem_cons_self _ _) h
        · exact ih part (List.mem_cons_of_mem _ hpart)

/-- The query of `getFiringNeuronIDs` on a table whose first row for the archive and time step
holds the string `s`. -/
theorem getFiringNeuronIDs_first (pre post : ArchiveData) (archiveID timeStep : Nat)
    (s : QString) (hpre : ∀ row ∈ pre, ¬ (row.1 = archiveID ∧ row.2.1 = timeStep)) :
    getFiringNeuronIDs (pre ++ (archiveID, timeStep, s) :: post) archiveID timeStep =
      QString.split comma s := by
  have hfilter : pre.filter (fun row => row.2.1 == timeStep && row.1 == archiveID) = [] := by
    apply List.filter_eq_nil_iff.mpr
    intro row hrow
    have := hpre row hrow
    simp only [Bool.and_eq_true, beq_iff_eq, not_and]
    intro h1 h2
    exact this ⟨h2, h1⟩
  unfold getFiringNeuronIDs
  simp [List.filter_append, hfilter, List.filter_cons]

/-- Claim C19: `getFiringNeuronIDs` returns the empty sequence when the table has no row for
the archive and time step; otherwise it returns the parts of the stored string between the
commas, in their order, none containing a comma, and joining them with commas gives the stored
string back.  In particular this is so for a string just stored by `addArchiveData`. -/
theorem getFiringNeuronIDs_spec (db : ArchiveData) (archiveID timeStep : Nat) :
    ((∀ row ∈ db, ¬ (row.1 = archiveID ∧ row.2.1 = timeStep)) →
      getFiringNeuronIDs db archiveID timeStep = []) ∧
    (∀ pre s post, db = pre ++ (archiveID, timeStep, s) :: post →
      (∀ row ∈ pre, ¬ (row.1 = archiveID ∧ row.2.1 = timeStep)) →
      getFiringNeuronIDs db archiveID timeStep = QString.split comma s ∧
        QString.join comma (getFiringNeuronIDs db archiveID timeStep) = s ∧
        ∀ part ∈ getFiringNeuronIDs db archiveID timeStep, comma ∉ part) ∧
    (∀ s, sqlPlain s → (∀ row ∈ db, ¬ (row.1 = archiveID ∧ row.2.1 = timeStep)) →
      QString.join comma
        (getFiringNeuronIDs (addArchiveData db archiveID timeStep s) archiveID timeStep) = s) := by
  refine ⟨?_, ?_, ?_⟩
  · intro hnone
    have hfilter : db.filter (fun row => row.2.1 == timeStep && row.1 == archiveID) = [] := by
      apply List.filter_eq_nil_iff.mpr
      intro row hrow
      have := hnone row hrow
      simp only [Bool.and_eq_true, beq_iff_eq, not_and]
      intro h1 h2
      exact this ⟨h2, h1⟩
    unfold getFiringNeuronIDs
    simp [hfilter]
  · intro pre s post hdb hpre
    rw [hdb, getFiringNeuronIDs_first pre post archiveID timeStep s hpre]
    exact ⟨rfl, join_split comma s, split_no_sep comma s⟩
  · intro s _ hnone
    unfold addArchiveData
    rw [getFiringNeuronIDs_first db [] archiveID timeStep s hnone]
    exact join_split comma s

/-- Witness for claim C19: the string 12,7 stored for time step 5 of archive 1 in an empty
table. -/
theorem getFiringNeuronIDs_spec_witness :
    sqlPlain "12,7".toList ∧
    (∀ row ∈ ([] : ArchiveData), ¬ (row.1 = 1 ∧ row.2.1 = 5)) ∧
    getFiringNeuronIDs [] 1 5 = [] ∧
    QString.join comma
      (getFiringNeuronIDs (addArchiveData [] 1 5 "12,7".toList) 1 5) = "12,7".toList :=
  ⟨by decide, by decide, (getFiringNeuronIDs_spec [] 1 5).1 (by decide),
   (getFiringNeuronIDs_spec [] 1 5).2.2 "12,7".toList (by decide) (by decide)⟩

/-- The stored string 12,7 is returned as the two element-ID strings 12 and 7. -/
theorem getFiringNeuronIDs_example :
    getFiringNeuronIDs (addArchiveData [] 1 5 "12,7".toList) 1 5 =
      ["12".toList, "7".toList] := by
  decide

end spikestream
